import Mathlib

/-!
Verification of the NMS (non-maximum suppression) core of the repository.

The wrapper layer (`src/mmcv/ops/nms.py`: `NMSop.forward`, `SoftNMSop.forward`,
`nms`, `soft_nms`, `batched_nms`, `nms_match`, `nms_quadri`) is embedded from
the source.  The pure suppression kernels it imports from
`mmcv.ops.pure_pytorch_nms` (`nms_pytorch`, `soft_nms_pytorch`,
`nms_match_pytorch`, `nms_quadri_pytorch`) are not part of the provided
sources, so they are modelled from the specification (sections 4.1-4.6);
each such definition carries a doc comment starting with `Modelled from the
spec:`.

Numbers are embedded as rationals, tensors as lists, and `torch.sort`
(descending) as a stable descending insertion sort, following the spec's
requirement (section 5) that score ties are broken by the caller-supplied
order.
-/

namespace MMCV

/-- An axis-aligned box `(x1, y1, x2, y2)`, as one row of an `(N, 4)` tensor. -/
structure Box where
  x1 : ℚ
  y1 : ℚ
  x2 : ℚ
  y2 : ℚ
deriving DecidableEq, Repr

/-- Default box used for (never-exercised) out-of-range list reads. -/
def dfltBox : Box := ⟨0, 0, 0, 0⟩

/-- Modelled from the spec (section 4.1): width of the intersection of two
boxes, `max(0, min(x2A, x2B) - max(x1A, x1B) + offset)`. -/
def interW (a b : Box) (o : ℚ) : ℚ := max 0 (min a.x2 b.x2 - max a.x1 b.x1 + o)

/-- Modelled from the spec (section 4.1): height of the intersection. -/
def interH (a b : Box) (o : ℚ) : ℚ := max 0 (min a.y2 b.y2 - max a.y1 b.y1 + o)

/-- Modelled from the spec (section 4.1): box area `(x2-x1+o) * (y2-y1+o)`. -/
def boxArea (a : Box) (o : ℚ) : ℚ := (a.x2 - a.x1 + o) * (a.y2 - a.y1 + o)

/-- Modelled from the spec (section 4.1): intersection area
`width * height`. -/
def interArea (a b : Box) (o : ℚ) : ℚ := interW a b o * interH a b o

/-- Modelled from the spec (section 4.1): intersection-over-union of two
axis-aligned boxes, `0` when the denominator is not positive. -/
def iou (a b : Box) (o : ℚ) : ℚ :=
  if boxArea a o + boxArea b o - interArea a b o ≤ 0 then 0
  else interArea a b o / (boxArea a o + boxArea b o - interArea a b o)

/-- A pooled detection: original index, box, score.  Mirrors one row of the
`(index, box, score)` data the kernels scan. -/
abbrev Det : Type := ℕ × Box × ℚ

/-- Stable descending insertion (by the key `f`): the new element goes in
front of the first element whose key is not larger, so an element inserted
later never jumps over an equal-keyed earlier element. -/
def insertDescBy {α : Type} (f : α → ℚ) (d : α) : List α → List α
  | [] => [d]
  | e :: es => if f e ≤ f d then d :: e :: es else e :: insertDescBy f d es

/-- Stable descending insertion sort by the key `f`.  Models
`torch.sort(descending=True)` under the spec's stable-tie-break contract
(section 5). -/
def sortDescBy {α : Type} (f : α → ℚ) : List α → List α
  | [] => []
  | d :: ds => insertDescBy f d (sortDescBy f ds)

/-- The pooled detections of a boxes/scores pair, indexed by position. -/
def enumDets (boxes : List Box) (scores : List ℚ) : List Det :=
  (boxes.zip scores).enum

/-- Modelled from the spec (section 4.2, step 3): the greedy scan.  `kept`
holds the already-emitted detections; a candidate is emitted iff no earlier
kept detection overlaps it with IoU above `thr`, exactly the "suppressed
marker" discipline (a suppressed index never suppresses others). -/
def nmsAux (thr : ℚ) : List Det → List Det → List Det
  | _, [] => []
  | kept, d :: ds =>
    if kept.all fun k => decide (iou k.2.1 d.2.1 0 ≤ thr) then
      d :: nmsAux thr (d :: kept) ds
    else
      nmsAux thr kept ds

/-- Modelled from the spec (section 4.2): `nms_pytorch` from
`mmcv.ops.pure_pytorch_nms` (not under `src/`).  Sorts by score descending
(stable) and runs the greedy scan, returning kept positions in emission
order.  Per its call site `NMSop.forward` it receives only boxes, scores and
the IoU threshold: the `offset` argument of the wrapper never reaches it, so
IoU is computed with offset `0`. -/
def nms_pytorch (boxes : List Box) (scores : List ℚ) (iou_threshold : ℚ) : List ℕ :=
  (nmsAux iou_threshold [] (sortDescBy (fun d => d.2.2) (enumDets boxes scores))).map (·.1)

/-- `NMSop.forward` (src/mmcv/ops/nms.py, lines 21-38): optional score
pre-filter, kernel call, `max_num` truncation, and mapping kept positions
back through the filter.  The `offset` argument is accepted but, as in the
source, not forwarded to the kernel. -/
def NMSop_forward (bboxes : List Box) (scores : List ℚ) (iou_threshold : ℚ)
    (offset : ℕ) (score_threshold : ℚ) (max_num : ℤ) : List ℕ :=
  let _ := offset
  if 0 < score_threshold then
    let valid_inds := (List.range scores.length).filter fun i =>
      decide (score_threshold < scores.getD i 0)
    let bboxesF := valid_inds.map fun i => bboxes.getD i dfltBox
    let scoresF := valid_inds.map fun i => scores.getD i 0
    let inds := nms_pytorch bboxesF scoresF iou_threshold
    let inds := if 0 < max_num then inds.take max_num.toNat else inds
    inds.map fun i => valid_inds.getD i 0
  else
    let inds := nms_pytorch bboxes scores iou_threshold
    if 0 < max_num then inds.take max_num.toNat else inds

/-- `nms` (src/mmcv/ops/nms.py, lines 84-140): runs `NMSop` and builds
`dets = cat(boxes[inds], scores[inds])`.  The Python defaults are
`offset = 0`, `score_threshold = 0`, `max_num = -1`. -/
def nms (boxes : List Box) (scores : List ℚ) (iou_threshold : ℚ)
    (offset : ℕ) (score_threshold : ℚ) (max_num : ℤ) :
    List (Box × ℚ) × List ℕ :=
  let inds := NMSop_forward boxes scores iou_threshold offset score_threshold max_num
  (inds.map fun i => (boxes.getD i dfltBox, scores.getD i 0), inds)

/-- The three soft-NMS decay kernels (spec section 4.3). -/
inductive SoftMethod where
  | naive
  | linear
  | gaussian
deriving DecidableEq, Repr

/-- Modelled from the spec (section 4.3): score-decay weight for one pick.
The gaussian weight `exp(-iou^2 / sigma)` is transcendental, hence not a
rational-valued function; the development is parameterized by an arbitrary
weight function `gw iou sigma` standing for it, and every claim about
soft-NMS is proved for all `gw`, which subsumes the true weight. -/
def decayWeight (gw : ℚ → ℚ → ℚ) (m : SoftMethod) (iouv thr sigma : ℚ) : ℚ :=
  match m with
  | .naive => if thr < iouv then 0 else 1
  | .linear => if thr < iouv then 1 - iouv else 1
  | .gaussian => gw iouv sigma

/-- Modelled from the spec (section 4.3): iterative soft-NMS selection.
Each round re-sorts the pool by current score (stable), picks the head,
decays every remaining score by its IoU with the pick and permanently drops
detections whose score falls to `min_score` or below.  `fuel` only bounds
the recursion; it is instantiated with the pool length, which every round
strictly decreases, so it never cuts the iteration short. -/
def softScanF (gw : ℚ → ℚ → ℚ) (m : SoftMethod) (thr sigma minScore : ℚ) :
    ℕ → List Det → List Det
  | 0, _ => []
  | fuel + 1, pool =>
    match sortDescBy (fun d => d.2.2) pool with
    | [] => []
    | d :: rest =>
      let rest' := rest.map fun e =>
        (e.1, e.2.1, e.2.2 * decayWeight gw m (iou d.2.1 e.2.1 0) thr sigma)
      d :: softScanF gw m thr sigma minScore fuel
        (rest'.filter fun e => decide (minScore < e.2.2))

/-- Modelled from the spec (section 4.3): `soft_nms_pytorch` from
`mmcv.ops.pure_pytorch_nms` (not under `src/`).  Per its call site
`SoftNMSop.forward` it receives boxes, scores, `iou_threshold`, `sigma`,
`min_score` and the method - no offset argument. -/
def soft_nms_pytorch (gw : ℚ → ℚ → ℚ) (boxes : List Box) (scores : List ℚ)
    (iou_threshold sigma min_score : ℚ) (method : SoftMethod) :
    List (Box × ℚ) × List ℕ :=
  let pool := enumDets boxes scores
  let kept := softScanF gw method iou_threshold sigma min_score pool.length pool
  (kept.map fun d => (d.2.1, d.2.2), kept.map (·.1))

/-- `SoftNMSop.forward` (src/mmcv/ops/nms.py, lines 41-60): translates the
method tag and calls the pure kernel.  As in the source, the `offset`
argument is accepted but not forwarded to the kernel (the integer/string
method round-trip through `method_map` is the identity and is elided). -/
def SoftNMSop_forward (gw : ℚ → ℚ → ℚ) (boxes : List Box) (scores : List ℚ)
    (iou_threshold sigma min_score : ℚ) (method : SoftMethod) (offset : ℕ) :
    List (Box × ℚ) × List ℕ :=
  let _ := offset
  soft_nms_pytorch gw boxes scores iou_threshold sigma min_score method

/-- `soft_nms` (src/mmcv/ops/nms.py, lines 143-208): validates, applies the
op and truncates `dets` to the index count (`dets[:inds.size(0)]`).  Python
defaults: `iou_threshold = 0.3`, `sigma = 0.5`, `min_score = 1e-3`,
`method = linear`, `offset = 0`. -/
def soft_nms (gw : ℚ → ℚ → ℚ) (boxes : List Box) (scores : List ℚ)
    (iou_threshold sigma min_score : ℚ) (method : SoftMethod) (offset : ℕ) :
    List (Box × ℚ) × List ℕ :=
  let r := SoftNMSop_forward gw boxes scores iou_threshold sigma min_score method offset
  (r.1.take r.2.length, r.2)

/-- Modelled from the spec (section 4.5): the grouping scan of
`nms_match_pytorch` (not under `src/`).  The head of the (descending-sorted)
pool leads a group consisting of itself and everything it suppresses
(IoU above `thr`); survivors are scanned recursively. -/
def groupScan (thr : ℚ) : List Det → List (List ℕ)
  | [] => []
  | d :: ds =>
    (d.1 :: (ds.filter fun e => !decide (iou d.2.1 e.2.1 0 ≤ thr)).map (·.1)) ::
      groupScan thr (ds.filter fun e => decide (iou d.2.1 e.2.1 0 ≤ thr))
termination_by l => l.length
decreasing_by
  simp only [List.length_cons]
  exact Nat.lt_succ_of_le (List.length_filter_le _ _)

/-- `nms_match` (src/mmcv/ops/nms.py, lines 332-365): empty input yields no
groups, otherwise the detections (rows `(box, score)` of the `(N, 5)` input)
are grouped by the kernel. -/
def nms_match (dets : List (Box × ℚ)) (iou_threshold : ℚ) : List (List ℕ) :=
  if dets.length = 0 then []
  else groupScan iou_threshold (sortDescBy (fun d => d.2.2) dets.enum)

/-! ### Quadrilateral NMS (spec sections 4.1 and 4.6) -/

/-- A planar point. -/
abbrev Pt : Type := ℚ × ℚ

/-- A quadrilateral `(x1, y1, ..., x4, y4)`, one row of an `(N, 8)` tensor. -/
structure Quad where
  p1 : Pt
  p2 : Pt
  p3 : Pt
  p4 : Pt
deriving DecidableEq, Repr

/-- The vertex list of a quadrilateral. -/
def quadPts (q : Quad) : List Pt := [q.p1, q.p2, q.p3, q.p4]

/-- Rotate a vertex list by one (to form the cyclic edge list). -/
def rotate1 {α : Type} : List α → List α
  | [] => []
  | p :: ps => ps ++ [p]

/-- Cross product of `ab` with `ap`, the sidedness of `p` w.r.t. line `ab`. -/
def cross2 (a b p : Pt) : ℚ :=
  (b.1 - a.1) * (p.2 - a.2) - (b.2 - a.2) * (p.1 - a.1)

/-- Modelled from the spec (section 4.1): twice the signed shoelace area. -/
def shoelace2 (ps : List Pt) : ℚ :=
  ((ps.zip (rotate1 ps)).map fun e => e.1.1 * e.2.2 - e.2.1 * e.1.2).sum

/-- Modelled from the spec (section 4.1): polygon area via the shoelace
formula. -/
def polyArea (ps : List Pt) : ℚ := |shoelace2 ps| / 2

/-- Intersection of the segment `p q` with the (infinite) line `a b`. -/
def lineInter (a b p q : Pt) : Pt :=
  let d1 := cross2 a b p
  let d2 := cross2 a b q
  if d1 - d2 = 0 then p
  else
    let t := d1 / (d1 - d2)
    (p.1 + t * (q.1 - p.1), p.2 + t * (q.2 - p.2))

/-- Modelled from the spec (section 4.1): one Sutherland-Hodgman step,
clipping `subject` against the half-plane on the left of the directed edge
`a b`. -/
def clipEdge (a b : Pt) (subject : List Pt) : List Pt :=
  (subject.zip (rotate1 subject)).foldl
    (fun acc e =>
      let p := e.1
      let q := e.2
      let pin := decide (0 ≤ cross2 a b p)
      let qin := decide (0 ≤ cross2 a b q)
      if qin then
        if pin then acc ++ [q] else acc ++ [lineInter a b p q, q]
      else
        if pin then acc ++ [lineInter a b p q] else acc)
    []

/-- Modelled from the spec (section 4.1): Sutherland-Hodgman clipping of
`subject` against every edge of `clip`. -/
def polyClip (subject clip : List Pt) : List Pt :=
  (clip.zip (rotate1 clip)).foldl (fun acc ab => clipEdge ab.1 ab.2 acc) subject

/-- Modelled from the spec (section 4.1): quadrilateral IoU - clipped
intersection area over union, `0` if either input area is non-positive or
the denominator is non-positive (an empty clip gives intersection `0`). -/
def polygon_iou (qa qb : Quad) : ℚ :=
  let areaA := polyArea (quadPts qa)
  let areaB := polyArea (quadPts qb)
  if areaA ≤ 0 ∨ areaB ≤ 0 then 0
  else
    let interA := polyArea (polyClip (quadPts qa) (quadPts qb))
    let denom := areaA + areaB - interA
    if denom ≤ 0 then 0 else interA / denom

/-- A pooled quadrilateral detection. -/
abbrev QDet : Type := ℕ × Quad × ℚ

/-- Modelled from the spec (section 4.6): the greedy scan of quadrilateral
NMS - same control flow as `nmsAux` with `polygon_iou` in place of `iou`. -/
def quadAux (thr : ℚ) : List QDet → List QDet → List QDet
  | _, [] => []
  | kept, d :: ds =>
    if kept.all fun k => decide (polygon_iou k.2.1 d.2.1 ≤ thr) then
      d :: quadAux thr (d :: kept) ds
    else
      quadAux thr kept ds

/-- Modelled from the spec (section 4.6): `nms_quadri_pytorch` (not under
`src/`). -/
def nms_quadri_pytorch (dets : List Quad) (scores : List ℚ) (iou_threshold : ℚ) :
    List (Quad × ℚ) × List ℕ :=
  let kept := quadAux iou_threshold []
    (sortDescBy (fun d => d.2.2) ((dets.zip scores).enum))
  (kept.map fun d => (d.2.1, d.2.2), kept.map (·.1))

/-- `nms_quadri` (src/mmcv/ops/nms.py, lines 368-399): empty input returns
the input together with `None`; otherwise the kernel output (kept boxes with
scores, `(K, 9)`) and the kept indices.  `labels` are caller bookkeeping
only and do not affect suppression (spec section 4.6). -/
def nms_quadri (dets : List Quad) (scores : List ℚ) (iou_threshold : ℚ)
    (labels : Option (List ℕ)) :
    (List Quad ⊕ List (Quad × ℚ)) × Option (List ℕ) :=
  let _ := labels
  if dets.length = 0 then (.inl dets, none)
  else
    let r := nms_quadri_pytorch dets scores iou_threshold
    (.inr r.1, some r.2)

/-! ### Batched NMS (src/mmcv/ops/nms.py, lines 211-329)

The claims exercise `batched_nms` with the default op `nms` (`nms_cfg` keys
`iou_threshold`, `split_thr`, `max_num`); the config record below carries
exactly those.  `class_agnostic` is taken as the effective flag (in the
source the config key, when present, overrides the argument).  Python
defaults: `split_thr = 10000`, `max_num = -1`. -/

/-- The `nms_cfg` dictionary restricted to the op `nms`. -/
structure NmsCfg where
  iouThreshold : ℚ
  splitThr : ℕ
  maxNum : ℤ
deriving DecidableEq, Repr

/-- Convenience list reads standing for tensor indexing (always used with
in-range indices). -/
def getB (l : List Box) (i : ℕ) : Box := l.getD i dfltBox

/-- Score read. -/
def getQ (l : List ℚ) (i : ℕ) : ℚ := l.getD i 0

/-- Class-id read. -/
def getN (l : List ℕ) (i : ℕ) : ℕ := l.getD i 0

/-- `boxes.max()`: the maximum over all coordinates of all boxes.  The
source raises on an empty tensor; `batched_nms` below guards that case, so
the `0` returned here for `[]` is never used. -/
def maxCoordinate (boxes : List Box) : ℚ :=
  match (boxes.map fun b => [b.x1, b.y1, b.x2, b.y2]).flatten with
  | [] => 0
  | c :: cs => cs.foldl max c

/-- Translate a box by `o` in both coordinates (`boxes + offsets[:, None]`
adds the per-box offset to all four entries of a row). -/
def shiftBox (b : Box) (o : ℚ) : Box := ⟨b.x1 + o, b.y1 + o, b.x2 + o, b.y2 + o⟩

/-- Lines 286-289: the offset trick for `(N, 4)` boxes -
`offsets = idxs * (max_coordinate + 1)`, added to every coordinate. -/
def boxesForNmsOf (boxes : List Box) (idxs : List ℕ) : List Box :=
  let m := maxCoordinate boxes
  (boxes.zip idxs).map fun p => shiftBox p.1 ((p.2 : ℚ) * (m + 1))

/-- Positions of class `c`, ascending: `(idxs == id).nonzero().view(-1)`. -/
def classMaskL (idxs : List ℕ) (c : ℕ) : List ℕ :=
  (List.range idxs.length).filter fun i => decide (getN idxs i = c)

/-- One iteration of the split loop (line 314): run `nms` on the rows of
class `c` (`boxes_for_nms[mask]`, `scores[mask]`, remaining config just the
IoU threshold) and map the kept positions back through the mask.  The same
composition, applied to unshifted boxes, is "plain per-class NMS" . -/
def classKeepG (boxesN : List Box) (scores : List ℚ) (idxs : List ℕ)
    (thr : ℚ) (c : ℕ) : List ℕ :=
  let mask := classMaskL idxs c
  ((nms (mask.map (getB boxesN)) (mask.map (getQ scores)) thr 0 0 (-1)).2).map
    (getN mask)

/-- Lines 309-317: the positions set in `total_mask`, ascending
(`total_mask.nonzero().view(-1)`).  The per-class masks are pairwise
disjoint, so the loop's scatter writes `total_mask[mask[keep]] = True` mark
exactly the positions kept by their own class's run. -/
def partKeep (boxesN : List Box) (scores : List ℚ) (idxs : List ℕ)
    (thr : ℚ) : List ℕ :=
  (List.range scores.length).filter fun i =>
    decide (i ∈ classKeepG boxesN scores idxs thr (getN idxs i))

/-- Lines 307-326, the `N >= split_thr` branch: per-class runs, merge,
stable re-sort of the kept positions by score descending, global `max_num`
cap, original boxes re-attached.  The sort key is the input score of each
kept position: the op is `nms`, whose `dets` carry the input scores
unchanged at the kept indices (theorem `nms_snd_scores` below), so the
scattered `scores_after_nms[mask[keep]] = dets[:, -1]` equals the input
scores at the kept positions. -/
def partPath (boxes : List Box) (scores : List ℚ) (idxs : List ℕ)
    (thr : ℚ) (maxNum : ℤ) (boxesN : List Box) : List (Box × ℚ) × List ℕ :=
  let keep := partKeep boxesN scores idxs thr
  let sorted := sortDescBy (getQ scores) keep
  let capped := if 0 < maxNum then sorted.take maxNum.toNat else sorted
  (capped.map fun i => (getB boxes i, getQ scores i), capped)

/-- Lines 297-306, the `N < split_thr` branch: one `nms` pass over the
(possibly shifted) boxes, with any `max_num` left in the config forwarded to
the op; kept rows re-attach the original boxes and take their scores from
`dets[:, -1]`. -/
def singlePath (boxes : List Box) (scores : List ℚ) (thr : ℚ) (maxNum : ℤ)
    (boxesN : List Box) : List (Box × ℚ) × List ℕ :=
  let r := nms boxesN scores thr 0 0 maxNum
  ((r.2.map (getB boxes)).zip (r.1.map Prod.snd), r.2)

/-- `batched_nms` (src/mmcv/ops/nms.py, lines 211-329) for `(N, 4)` boxes
and the op `nms`.  `nms_cfg = None` skips suppression and returns everything
score-sorted.  Otherwise the non-class-agnostic path computes the offset
boxes - where `boxes.max()` raises on an empty tensor, modelled as the
`Except.error` case - and dispatches on `split_thr`. -/
def batched_nms (boxes : List Box) (scores : List ℚ) (idxs : List ℕ)
    (nms_cfg : Option NmsCfg) (class_agnostic : Bool) :
    Except String (List (Box × ℚ) × List ℕ) :=
  match nms_cfg with
  | none =>
    let sorted := sortDescBy (fun d : Det => d.2.2) (enumDets boxes scores)
    .ok (sorted.map (fun d => (d.2.1, d.2.2)), sorted.map (·.1))
  | some cfg =>
    if class_agnostic then
      if boxes.length < cfg.splitThr then
        .ok (singlePath boxes scores cfg.iouThreshold cfg.maxNum boxes)
      else
        .ok (partPath boxes scores idxs cfg.iouThreshold cfg.maxNum boxes)
    else
      if boxes.isEmpty then
        .error "max(): Expected reduction dim to be specified for input.numel() == 0"
      else
        let boxesN := boxesForNmsOf boxes idxs
        if boxesN.length < cfg.splitThr then
          .ok (singlePath boxes scores cfg.iouThreshold cfg.maxNum boxesN)
        else
          .ok (partPath boxes scores idxs cfg.iouThreshold cfg.maxNum boxesN)

/-- The kept-index component of a `batched_nms` result (empty on error). -/
def keepOf (r : Except String (List (Box × ℚ) × List ℕ)) : List ℕ :=
  match r with
  | .ok p => p.2
  | .error _ => []

/-- The class ids occurring in `idxs`, ascending and duplicate-free:
`torch.unique(idxs)`. -/
def uniqueSorted (idxs : List ℕ) : List ℕ :=
  (List.range (idxs.foldr max 0 + 1)).filter fun c => decide (c ∈ idxs)

/-- Spec-side reference for C2 (spec sections 4.4 and 8, written from the
claim's words): run plain per-class NMS - the op on each class's rows of the
original, unshifted boxes - separately, and merge the kept original
indices. -/
def perClassMergedKeep (boxes : List Box) (scores : List ℚ) (idxs : List ℕ)
    (thr : ℚ) : List ℕ :=
  (uniqueSorted idxs).map (classKeepG boxes scores idxs thr) |>.flatten

/-- Spec-side reference for C3, written from the claim's words: partition
the indices by class id, run the NMS op independently on each partition
using the original (unshifted) coordinates, union the kept indices (a set,
represented ascending), re-sort the union by score descending, and apply
`max_num` as a final global cap. -/
def batchedSpecSplit (boxes : List Box) (scores : List ℚ) (idxs : List ℕ)
    (thr : ℚ) (maxNum : ℤ) : List (Box × ℚ) × List ℕ :=
  let unionKeep := (List.range scores.length).filter fun i =>
    decide (∃ c ∈ uniqueSorted idxs, i ∈ classKeepG boxes scores idxs thr c)
  let sorted := sortDescBy (getQ scores) unionKeep
  let capped := if 0 < maxNum then sorted.take maxNum.toNat else sorted
  (capped.map fun i => (getB boxes i, getQ scores i), capped)

/-! ### Rotated boxes (the `boxes.size(-1) == 5` branch) -/

/-- A rotated box `(cx, cy, w, h, angle)`, one row of an `(N, 5)` tensor. -/
structure RBox where
  cx : ℚ
  cy : ℚ
  w : ℚ
  h : ℚ
  angle : ℚ
deriving DecidableEq, Repr

/-- Lines 279: `boxes[..., :2].max() + boxes[..., 2:4].max()` - the rotated
max-coordinate surrogate (center max plus extent max).  Only used on
non-empty input. -/
def rotMaxCoordinate (boxes : List RBox) : ℚ :=
  let centers := (boxes.map fun b => [b.cx, b.cy]).flatten
  let extents := (boxes.map fun b => [b.w, b.h]).flatten
  let mx := fun l : List ℚ => match l with
    | [] => 0
    | c :: cs => cs.foldl max c
  mx centers + mx extents

/-- Lines 280-284: the rotated offset trick adds the class offset to the
center coordinates only, keeping width, height and angle. -/
def rotBoxesForNms (boxes : List RBox) (idxs : List ℕ) : List RBox :=
  let m := rotMaxCoordinate boxes
  (boxes.zip idxs).map fun p =>
    ⟨p.1.cx + (p.2 : ℚ) * (m + 1), p.1.cy + (p.2 : ℚ) * (m + 1), p.1.w, p.1.h, p.1.angle⟩

/-- `batched_nms` on `(N, 5)` rotated boxes.  With `nms_cfg = None` the
sort-and-return path works as for axis-aligned boxes.  With a config, the
offset boxes (shifted centers) are `(N, 5)`, and both the single-pass and
the split branch then call the op `nms`, whose `assert boxes.size(1) == 4`
(line 130) fails - `nms_rotated` has been removed from this fork (lines
11-15) - so every such call raises. -/
def batched_nms_rotated (boxes : List RBox) (scores : List ℚ) (idxs : List ℕ)
    (nms_cfg : Option NmsCfg) (class_agnostic : Bool) :
    Except String (List (RBox × ℚ) × List ℕ) :=
  match nms_cfg with
  | none =>
    let sorted := sortDescBy (fun d : ℕ × RBox × ℚ => d.2.2) ((boxes.zip scores).enum)
    .ok (sorted.map (fun d => (d.2.1, d.2.2)), sorted.map (·.1))
  | some _ =>
    if class_agnostic then
      .error "assert boxes.size(1) == 4"
    else if boxes.isEmpty then
      .error "max(): Expected reduction dim to be specified for input.numel() == 0"
    else
      let boxesN := rotBoxesForNms boxes idxs
      let _ := boxesN
      .error "assert boxes.size(1) == 4"

/-! ## Lemmas about the stable descending sort -/

theorem insertDescBy_perm {α : Type} (f : α → ℚ) (d : α) (l : List α) :
    (insertDescBy f d l).Perm (d :: l) := by
  induction l with
  | nil => simp [insertDescBy]
  | cons e es ih =>
    by_cases h : f e ≤ f d
    · simp [insertDescBy, h]
    · simp only [insertDescBy, if_neg h]
      exact (ih.cons e).trans (List.Perm.swap d e es)

theorem sortDescBy_perm {α : Type} (f : α → ℚ) (l : List α) :
    (sortDescBy f l).Perm l := by
  induction l with
  | nil => simp [sortDescBy]
  | cons d ds ih =>
    exact (insertDescBy_perm f d (sortDescBy f ds)).trans (ih.cons d)

theorem sortDescBy_length {α : Type} (f : α → ℚ) (l : List α) :
    (sortDescBy f l).length = l.length :=
  (sortDescBy_perm f l).length_eq

theorem mem_sortDescBy {α : Type} {f : α → ℚ} {l : List α} {a : α} :
    a ∈ sortDescBy f l ↔ a ∈ l :=
  (sortDescBy_perm f l).mem_iff

theorem insertDescBy_sorted {α : Type} {f : α → ℚ} {l : List α}
    (h : l.Pairwise (fun a b => f b ≤ f a)) (d : α) :
    (insertDescBy f d l).Pairwise (fun a b => f b ≤ f a) := by
  induction l with
  | nil => simp [insertDescBy]
  | cons e es ih =>
    rw [List.pairwise_cons] at h
    by_cases hc : f e ≤ f d
    · simp only [insertDescBy, if_pos hc]
      refine List.pairwise_cons.2 ⟨?_, List.pairwise_cons.2 h⟩
      intro x hx
      rcases List.mem_cons.1 hx with rfl | hx
      · exact hc
      · exact le_trans (h.1 x hx) hc
    · simp only [insertDescBy, if_neg hc]
      refine List.pairwise_cons.2 ⟨?_, ih h.2⟩
      intro x hx
      rcases List.mem_cons.1 ((insertDescBy_perm f d es).mem_iff.1 hx) with rfl | h2
      · exact le_of_lt (lt_of_not_le hc)
      · exact h.1 x h2

theorem sortDescBy_sorted {α : Type} (f : α → ℚ) (l : List α) :
    (sortDescBy f l).Pairwise (fun a b => f b ≤ f a) := by
  induction l with
  | nil => simp [sortDescBy]
  | cons d ds ih => exact insertDescBy_sorted ih d

theorem sortDescBy_of_sorted {α : Type} {f : α → ℚ} {l : List α}
    (h : l.Pairwise (fun a b => f b ≤ f a)) : sortDescBy f l = l := by
  induction l with
  | nil => rfl
  | cons d ds ih =>
    rw [List.pairwise_cons] at h
    rw [sortDescBy, ih h.2]
    cases ds with
    | nil => rfl
    | cons e es => simp [insertDescBy, h.1 e (List.mem_cons_self e es)]

theorem insertDescBy_map {α β : Type} (f : β → ℚ) (g : α → β) (d : α)
    (l : List α) :
    insertDescBy f (g d) (l.map g) = (insertDescBy (fun x => f (g x)) d l).map g := by
  induction l with
  | nil => rfl
  | cons e es ih =>
    by_cases h : f (g e) ≤ f (g d)
    · simp [insertDescBy, h]
    · simp [insertDescBy, h, ih]

theorem sortDescBy_map {α β : Type} (f : β → ℚ) (g : α → β) (l : List α) :
    sortDescBy f (l.map g) = (sortDescBy (fun x => f (g x)) l).map g := by
  induction l with
  | nil => rfl
  | cons d ds ih => rw [List.map_cons, sortDescBy, ih, insertDescBy_map, sortDescBy]

theorem insertDescBy_filter_pos {α : Type} {f : α → ℚ} {p : α → Bool}
    {l : List α} (hs : l.Pairwise (fun a b => f b ≤ f a)) {d : α}
    (hd : p d = true) :
    (insertDescBy f d l).filter p = insertDescBy f d (l.filter p) := by
  induction l with
  | nil => simp [insertDescBy, hd]
  | cons e es ih =>
    rw [List.pairwise_cons] at hs
    by_cases hc : f e ≤ f d
    · by_cases hp : p e = true
      · simp [insertDescBy, hc, hd, hp, List.filter_cons]
      · simp only [insertDescBy, if_pos hc, List.filter_cons]
        simp only [hd, hp, if_true, Bool.false_eq_true, if_false]
        cases hfe : es.filter p with
        | nil => rfl
        | cons x xs =>
          have hx : x ∈ es.filter p := hfe ▸ List.mem_cons_self x xs
          have hx2 : f x ≤ f d :=
            le_trans (hs.1 x (List.mem_of_mem_filter hx)) hc
          simp [insertDescBy, hx2]
    · have h1 : insertDescBy f d (e :: es) = e :: insertDescBy f d es := by
        simp [insertDescBy, hc]
      by_cases hp : p e = true
      · rw [h1, List.filter_cons, List.filter_cons]
        simp only [hp, if_true]
        rw [ih hs.2]
        simp [insertDescBy, hc]
      · rw [h1, List.filter_cons, List.filter_cons]
        simp only [hp, Bool.false_eq_true, if_false]
        exact ih hs.2

theorem insertDescBy_filter_neg {α : Type} (f : α → ℚ) (p : α → Bool)
    (l : List α) {d : α} (hd : p d = false) :
    (insertDescBy f d l).filter p = l.filter p := by
  induction l with
  | nil => simp [insertDescBy, hd]
  | cons e es ih =>
    by_cases hc : f e ≤ f d
    · simp [insertDescBy, hc, List.filter_cons, hd]
    · simp [insertDescBy, hc, List.filter_cons, ih]

theorem sortDescBy_filter {α : Type} (f : α → ℚ) (p : α → Bool) (l : List α) :
    (sortDescBy f l).filter p = sortDescBy f (l.filter p) := by
  induction l with
  | nil => rfl
  | cons d ds ih =>
    rw [sortDescBy, List.filter_cons]
    by_cases hd : p d = true
    · rw [insertDescBy_filter_pos (sortDescBy_sorted f ds) hd, ih]
      simp only [hd, if_true]
      rfl
    · rw [insertDescBy_filter_neg f p _ (Bool.not_eq_true _ ▸ hd), ih]
      simp [hd]

/-! ## Lemmas about the IoU -/

theorem interW_comm (a b : Box) (o : ℚ) : interW a b o = interW b a o := by
  rw [interW, interW, min_comm a.x2 b.x2, max_comm a.x1 b.x1]

theorem interH_comm (a b : Box) (o : ℚ) : interH a b o = interH b a o := by
  rw [interH, interH, min_comm a.y2 b.y2, max_comm a.y1 b.y1]

theorem interArea_comm (a b : Box) (o : ℚ) : interArea a b o = interArea b a o := by
  rw [interArea, interArea, interW_comm, interH_comm]

theorem iou_comm (a b : Box) (o : ℚ) : iou a b o = iou b a o := by
  rw [iou, iou, interArea_comm, add_comm (boxArea a o)]

theorem interW_shift (a b : Box) (s o : ℚ) :
    interW (shiftBox a s) (shiftBox b s) o = interW a b o := by
  show max 0 (min (a.x2 + s) (b.x2 + s) - max (a.x1 + s) (b.x1 + s) + o)
      = max 0 (min a.x2 b.x2 - max a.x1 b.x1 + o)
  rw [min_add_add_right, max_add_add_right]
  congr 1
  ring

theorem interH_shift (a b : Box) (s o : ℚ) :
    interH (shiftBox a s) (shiftBox b s) o = interH a b o := by
  show max 0 (min (a.y2 + s) (b.y2 + s) - max (a.y1 + s) (b.y1 + s) + o)
      = max 0 (min a.y2 b.y2 - max a.y1 b.y1 + o)
  rw [min_add_add_right, max_add_add_right]
  congr 1
  ring

theorem boxArea_shift (a : Box) (s o : ℚ) :
    boxArea (shiftBox a s) o = boxArea a o := by
  simp only [boxArea, shiftBox]
  ring

theorem iou_shift (a b : Box) (s o : ℚ) :
    iou (shiftBox a s) (shiftBox b s) o = iou a b o := by
  rw [iou, iou, interArea, interArea, interW_shift, interH_shift, boxArea_shift,
    boxArea_shift]

theorem iou_of_interArea_zero {a b : Box} {o : ℚ} (h : interArea a b o = 0) :
    iou a b o = 0 := by
  rw [iou, h]
  simp

theorem interW_sep {a b : Box} {M sa sb : ℚ} (ha2 : a.x2 ≤ M) (hb1 : 0 ≤ b.x1)
    (hs : sa + M + 1 ≤ sb) :
    interW (shiftBox a sa) (shiftBox b sb) 0 = 0 := by
  show max 0 (min (a.x2 + sa) (b.x2 + sb) - max (a.x1 + sa) (b.x1 + sb) + 0) = 0
  apply max_eq_left
  have h1 : min (a.x2 + sa) (b.x2 + sb) ≤ a.x2 + sa := min_le_left _ _
  have h2 : b.x1 + sb ≤ max (a.x1 + sa) (b.x1 + sb) := le_max_right _ _
  linarith

/-- Cross-class boxes never overlap after the offset trick, provided all
coordinates are non-negative and bounded by `M`. -/
theorem iou_sep {a b : Box} {M : ℚ} {ca cb : ℕ}
    (ha1 : 0 ≤ a.x1) (ha2 : a.x2 ≤ M) (hb1 : 0 ≤ b.x1) (hb2 : b.x2 ≤ M)
    (hM : 0 ≤ M) (hne : ca ≠ cb) :
    iou (shiftBox a ((ca : ℚ) * (M + 1))) (shiftBox b ((cb : ℚ) * (M + 1))) 0 = 0 := by
  rcases Nat.lt_or_ge ca cb with hlt | hge
  · apply iou_of_interArea_zero
    rw [interArea, interW_sep ha2 hb1, zero_mul]
    have hc : (ca : ℚ) + 1 ≤ (cb : ℚ) := by exact_mod_cast Nat.succ_le_of_lt hlt
    have := mul_le_mul_of_nonneg_right hc (by linarith : (0 : ℚ) ≤ M + 1)
    linarith [this]
  · have hlt : cb < ca := lt_of_le_of_ne hge (Ne.symm hne)
    rw [iou_comm]
    apply iou_of_interArea_zero
    rw [interArea, interW_sep hb2 ha1, zero_mul]
    have hc : (cb : ℚ) + 1 ≤ (ca : ℚ) := by exact_mod_cast Nat.succ_le_of_lt hlt
    have := mul_le_mul_of_nonneg_right hc (by linarith : (0 : ℚ) ≤ M + 1)
    linarith [this]

/-! ## The batch maximum coordinate bounds every coordinate -/

theorem le_foldl_max (c : ℚ) (cs : List ℚ) :
    c ≤ cs.foldl max c ∧ ∀ x ∈ cs, x ≤ cs.foldl max c := by
  induction cs generalizing c with
  | nil => simp
  | cons y ys ih =>
    obtain ⟨h1, h2⟩ := ih (max c y)
    refine ⟨le_trans (le_max_left c y) h1, ?_⟩
    intro x hx
    rcases List.mem_cons.1 hx with rfl | hx2
    · exact le_trans (le_max_right c x) h1
    · exact h2 x hx2

theorem coord_le_maxCoordinate {boxes : List Box} {b : Box} (hb : b ∈ boxes) :
    b.x1 ≤ maxCoordinate boxes ∧ b.y1 ≤ maxCoordinate boxes ∧
    b.x2 ≤ maxCoordinate boxes ∧ b.y2 ≤ maxCoordinate boxes := by
  have hmem : ∀ x ∈ [b.x1, b.y1, b.x2, b.y2],
      x ∈ (boxes.map fun b => [b.x1, b.y1, b.x2, b.y2]).flatten := by
    intro x hx
    exact List.mem_flatten.2 ⟨[b.x1, b.y1, b.x2, b.y2], List.mem_map_of_mem _ hb, hx⟩
  rw [maxCoordinate]
  cases hfe : (boxes.map fun b => [b.x1, b.y1, b.x2, b.y2]).flatten with
  | nil =>
    exact absurd (hfe ▸ hmem b.x1 (by simp)) (List.not_mem_nil _)
  | cons c cs =>
    obtain ⟨h1, h2⟩ := le_foldl_max c cs
    have key : ∀ x ∈ [b.x1, b.y1, b.x2, b.y2], x ≤ cs.foldl max c := by
      intro x hx
      rcases List.mem_cons.1 (hfe ▸ hmem x hx) with rfl | hx2
      · exact h1
      · exact h2 x hx2
    exact ⟨key b.x1 (by simp), key b.y1 (by simp), key b.x2 (by simp),
      key b.y2 (by simp)⟩

/-! ## Lemmas about the greedy scan -/

theorem nmsAux_sublist (thr : ℚ) (l : List Det) :
    ∀ kept, (nmsAux thr kept l).Sublist l := by
  induction l with
  | nil => intro kept; simp [nmsAux]
  | cons d ds ih =>
    intro kept
    simp only [nmsAux]
    by_cases h : (kept.all fun k => decide (iou k.2.1 d.2.1 0 ≤ thr)) = true
    · simp only [if_pos h]
      exact (ih (d :: kept)).cons₂ d
    · simp only [if_neg h]
      exact (ih kept).cons d

theorem nmsAux_pairwise (thr : ℚ) (l : List Det) : ∀ kept,
    (∀ x ∈ nmsAux thr kept l, ∀ k ∈ kept, iou k.2.1 x.2.1 0 ≤ thr) ∧
    (nmsAux thr kept l).Pairwise (fun d e => iou d.2.1 e.2.1 0 ≤ thr) := by
  induction l with
  | nil => intro kept; simp [nmsAux]
  | cons d ds ih =>
    intro kept
    simp only [nmsAux]
    by_cases h : (kept.all fun k => decide (iou k.2.1 d.2.1 0 ≤ thr)) = true
    · simp only [if_pos h]
      obtain ⟨ih1, ih2⟩ := ih (d :: kept)
      constructor
      · intro x hx k hk
        rcases List.mem_cons.1 hx with rfl | hx2
        · exact of_decide_eq_true (List.all_eq_true.1 h k hk)
        · exact ih1 x hx2 k (List.mem_cons_of_mem d hk)
      · refine List.pairwise_cons.2 ⟨?_, ih2⟩
        intro e he
        exact ih1 e he d (List.mem_cons_self d kept)
    · simp only [if_neg h]
      exact ih kept

theorem nmsAux_all_kept (thr : ℚ) (l : List Det) : ∀ kept,
    l.Pairwise (fun d e => iou d.2.1 e.2.1 0 ≤ thr) →
    (∀ x ∈ l, ∀ k ∈ kept, iou k.2.1 x.2.1 0 ≤ thr) →
    nmsAux thr kept l = l := by
  induction l with
  | nil => intro kept _ _; simp [nmsAux]
  | cons d ds ih =>
    intro kept hp hk
    rw [List.pairwise_cons] at hp
    have hcond : (kept.all fun k => decide (iou k.2.1 d.2.1 0 ≤ thr)) = true :=
      List.all_eq_true.2 fun k hkk =>
        decide_eq_true (hk d (List.mem_cons_self d ds) k hkk)
    simp only [nmsAux, if_pos hcond]
    congr 1
    apply ih (d :: kept) hp.2
    intro x hx k hkk
    rcases List.mem_cons.1 hkk with rfl | h2
    · exact hp.1 x hx
    · exact hk x (List.mem_cons_of_mem d hx) k h2

theorem nmsAux_map (thr : ℚ) (g : Det → Det)
    (hg : ∀ a b : Det, iou (g a).2.1 (g b).2.1 0 = iou a.2.1 b.2.1 0)
    (l : List Det) :
    ∀ kept, nmsAux thr (kept.map g) (l.map g) = (nmsAux thr kept l).map g := by
  induction l with
  | nil => intro kept; simp [nmsAux]
  | cons d ds ih =>
    intro kept
    simp only [List.map_cons, nmsAux]
    have hc : ((kept.map g).all fun k => decide (iou k.2.1 (g d).2.1 0 ≤ thr)) =
        (kept.all fun k => decide (iou k.2.1 d.2.1 0 ≤ thr)) := by
      rw [List.all_map]
      congr 1
      funext k
      simp only [Function.comp_apply, hg]
    rw [hc]
    by_cases h : (kept.all fun k => decide (iou k.2.1 d.2.1 0 ≤ thr)) = true
    · simp only [if_pos h, List.map_cons]
      have he : g d :: kept.map g = (d :: kept).map g := rfl
      rw [he, ih (d :: kept)]
    · simp only [if_neg h]
      exact ih kept

theorem nmsAux_filter_class (thr : ℚ) (cl : Det → ℕ) (c : ℕ) (l : List Det) :
    ∀ kept,
    (∀ x ∈ kept ++ l, ∀ y ∈ kept ++ l, cl x ≠ cl y → iou x.2.1 y.2.1 0 ≤ thr) →
    (nmsAux thr kept l).filter (fun d => decide (cl d = c)) =
      nmsAux thr (kept.filter fun d => decide (cl d = c))
        (l.filter fun d => decide (cl d = c)) := by
  induction l with
  | nil => intro kept _; simp [nmsAux]
  | cons d ds ih =>
    intro kept H
    have hmem1 : ∀ x : Det, x ∈ (d :: kept) ++ ds → x ∈ kept ++ d :: ds := by
      intro x hx
      rcases List.mem_append.1 hx with hx | hx
      · rcases List.mem_cons.1 hx with rfl | hx
        · exact List.mem_append_right _ (List.mem_cons_self _ _)
        · exact List.mem_append_left _ hx
      · exact List.mem_append_right _ (List.mem_cons_of_mem _ hx)
    have hmem2 : ∀ x : Det, x ∈ kept ++ ds → x ∈ kept ++ d :: ds := by
      intro x hx
      rcases List.mem_append.1 hx with hx | hx
      · exact List.mem_append_left _ hx
      · exact List.mem_append_right _ (List.mem_cons_of_mem _ hx)
    have Hd : ∀ x ∈ (d :: kept) ++ ds, ∀ y ∈ (d :: kept) ++ ds,
        cl x ≠ cl y → iou x.2.1 y.2.1 0 ≤ thr :=
      fun x hx y hy => H x (hmem1 x hx) y (hmem1 y hy)
    have Hk : ∀ x ∈ kept ++ ds, ∀ y ∈ kept ++ ds,
        cl x ≠ cl y → iou x.2.1 y.2.1 0 ≤ thr :=
      fun x hx y hy => H x (hmem2 x hx) y (hmem2 y hy)
    have hdmem : d ∈ kept ++ d :: ds :=
      List.mem_append_right _ (List.mem_cons_self _ _)
    simp only [nmsAux, List.filter_cons]
    by_cases hcl : cl d = c
    · simp only [decide_eq_true hcl, if_true]
      by_cases hg : ∀ k ∈ kept, iou k.2.1 d.2.1 0 ≤ thr
      · have g1 : (kept.all fun k => decide (iou k.2.1 d.2.1 0 ≤ thr)) = true :=
          List.all_eq_true.2 fun k hk => decide_eq_true (hg k hk)
        have g2 : ((kept.filter fun e => decide (cl e = c)).all fun k =>
            decide (iou k.2.1 d.2.1 0 ≤ thr)) = true :=
          List.all_eq_true.2 fun k hk =>
            decide_eq_true (hg k (List.mem_of_mem_filter hk))
        simp only [nmsAux, if_pos g1, if_pos g2, List.filter_cons,
          decide_eq_true hcl, if_true]
        rw [ih (d :: kept) Hd]
        have he : (d :: kept).filter (fun e => decide (cl e = c)) =
            d :: kept.filter (fun e => decide (cl e = c)) := by
          simp [List.filter_cons, hcl]
        rw [he]
      · push_neg at hg
        obtain ⟨k, hk, hkv⟩ := hg
        have hkv2 : ¬ iou k.2.1 d.2.1 0 ≤ thr := not_le.2 hkv
        have hclk : cl k = c := by
          by_contra hne
          exact hkv2 (H k (List.mem_append_left _ hk) d hdmem
            fun hEq => hne (hEq.trans hcl))
        have hkf : k ∈ kept.filter fun e => decide (cl e = c) :=
          List.mem_filter.2 ⟨hk, decide_eq_true hclk⟩
        have g1 : ¬ ((kept.all fun k => decide (iou k.2.1 d.2.1 0 ≤ thr)) = true) :=
          fun hall => hkv2 (of_decide_eq_true (List.all_eq_true.1 hall k hk))
        have g2 : ¬ (((kept.filter fun e => decide (cl e = c)).all fun k =>
            decide (iou k.2.1 d.2.1 0 ≤ thr)) = true) :=
          fun hall => hkv2 (of_decide_eq_true (List.all_eq_true.1 hall k hkf))
        simp only [nmsAux, if_neg g1, if_neg g2]
        exact ih kept Hk
    · simp only [decide_eq_false hcl, Bool.false_eq_true, if_false]
      by_cases hg : (kept.all fun k => decide (iou k.2.1 d.2.1 0 ≤ thr)) = true
      · simp only [if_pos hg]
        rw [List.filter_cons]
        simp only [decide_eq_false hcl, Bool.false_eq_true, if_false]
        rw [ih (d :: kept) Hd]
        have he : (d :: kept).filter (fun e => decide (cl e = c)) =
            kept.filter (fun e => decide (cl e = c)) := by
          simp [List.filter_cons, hcl]
        rw [he]
      · simp only [if_neg hg]
        exact ih kept Hk

/-! ## Enumeration and slicing lemmas -/

theorem mem_enum_getD {α : Type} {l : List α} {x : ℕ × α} (h : x ∈ l.enum)
    (d : α) : x.1 < l.length ∧ l.getD x.1 d = x.2 := by
  have h2 := List.mem_enum_iff_get?.1 h
  rw [List.get?_eq_some] at h2
  obtain ⟨hlt, hget⟩ := h2
  refine ⟨hlt, ?_⟩
  rw [List.getD_eq_getElem l d hlt, ← hget]
  simp

theorem enum_fst_inj {α : Type} {l : List α} {x y : ℕ × α}
    (hx : x ∈ l.enum) (hy : y ∈ l.enum) (h : x.1 = y.1) : x = y := by
  have h1 := List.mem_enum_iff_get?.1 hx
  have h2 := List.mem_enum_iff_get?.1 hy
  rw [h] at h1
  rw [h1] at h2
  exact Prod.ext h (Option.some.inj h2)

theorem nodup_enum {α : Type} (l : List α) : l.enum.Nodup :=
  List.Nodup.of_map Prod.fst (by rw [List.enum_map_fst]; exact List.nodup_range _)

theorem enumFrom_filter_idx {α : Type} (p : ℕ → Bool) (dflt : α) :
    ∀ (l : List α) (n : ℕ),
    (List.enumFrom n l).filter (fun x => p x.1) =
      ((List.range' n l.length).filter p).map fun i => (i, l.getD (i - n) dflt) := by
  intro l
  induction l with
  | nil => intro n; rfl
  | cons a as ih =>
    intro n
    rw [List.enumFrom_cons, List.length_cons, List.range'_succ, List.filter_cons,
      List.filter_cons]
    have hsub : ∀ i ∈ (List.range' (n + 1) as.length).filter p,
        ((i, as.getD (i - (n + 1)) dflt) : ℕ × α) = (i, (a :: as).getD (i - n) dflt) := by
      intro i hi
      have hge : n + 1 ≤ i := by
        obtain ⟨j, _, rfl⟩ := List.mem_range'.1 (List.mem_of_mem_filter hi)
        omega
      have hstep : i - n = (i - (n + 1)) + 1 := by omega
      rw [hstep, List.getD_cons_succ]
    by_cases hp : p n = true
    · simp only [hp, if_true]
      rw [ih (n + 1)]
      simp only [List.map_cons, Nat.sub_self, List.getD_cons_zero]
      congr 1
      exact List.map_congr_left hsub
    · simp only [Bool.not_eq_true] at hp
      simp only [hp, Bool.false_eq_true, if_false]
      rw [ih (n + 1)]
      exact List.map_congr_left hsub

theorem enum_filter_idx {α : Type} (p : ℕ → Bool) (dflt : α) (l : List α) :
    l.enum.filter (fun x => p x.1) =
      ((List.range l.length).filter p).map fun i => (i, l.getD i dflt) := by
  rw [List.enum_eq_enumFrom, List.range_eq_range', enumFrom_filter_idx p dflt l 0]
  apply List.map_congr_left
  intro i _
  rw [Nat.sub_zero]

theorem map_enum_map {α : Type} (mask : List ℕ) (q : ℕ → α) :
    ((mask.map q).enum).map (fun x => (mask.getD x.1 0, x.2)) =
      mask.map fun i => (i, q i) := by
  rw [List.enum_map, List.map_map]
  have h2 : mask.map (fun i => (i, q i)) =
      mask.enum.map ((fun i => (i, q i)) ∘ Prod.snd) := by
    rw [← List.map_map, List.enum_map_snd]
  rw [h2]
  apply List.map_congr_left
  intro x hx
  have h3 := (mem_enum_getD hx 0).2
  simp only [Function.comp_apply, Prod.map, id_eq]
  rw [h3]

theorem getD_zip {α β : Type} {l1 : List α} {l2 : List β} {i : ℕ} (d1 : α) (d2 : β)
    (h1 : i < l1.length) (h2 : i < l2.length) :
    (l1.zip l2).getD i (d1, d2) = (l1.getD i d1, l2.getD i d2) := by
  have hz : i < (l1.zip l2).length := by
    rw [List.length_zip]
    exact lt_min h1 h2
  rw [List.getD_eq_getElem _ _ hz, List.getElem_zip, List.getD_eq_getElem _ _ h1,
    List.getD_eq_getElem _ _ h2]

theorem mem_enumDets {boxes : List Box} {scores : List ℚ} {d : Det}
    (h : d ∈ enumDets boxes scores) :
    d.1 < boxes.length ∧ d.1 < scores.length ∧
      d.2.1 = getB boxes d.1 ∧ d.2.2 = getQ scores d.1 := by
  obtain ⟨hlt, hgd⟩ := mem_enum_getD h (dfltBox, 0)
  rw [List.length_zip, lt_min_iff] at hlt
  rw [getD_zip dfltBox 0 hlt.1 hlt.2] at hgd
  exact ⟨hlt.1, hlt.2, (congrArg Prod.fst hgd).symm, (congrArg Prod.snd hgd).symm⟩

/-- The sliced pool, re-indexed through the mask, is exactly the filtered
global pool: the bridge between a per-class (or score-filtered) call of the
kernel and the corresponding restriction of the global scan. -/
theorem sliceEnum_eq_filter (boxes : List Box) (scores : List ℚ) (p : ℕ → Bool)
    (hL : boxes.length = scores.length) (mask : List ℕ)
    (hmask : mask = (List.range scores.length).filter p) :
    (enumDets (mask.map (getB boxes)) (mask.map (getQ scores))).map
      (fun d => ((mask.getD d.1 0 : ℕ), d.2)) =
    (enumDets boxes scores).filter fun d => p d.1 := by
  have hzip : (mask.map (getB boxes)).zip (mask.map (getQ scores)) =
      mask.map fun i => (getB boxes i, getQ scores i) := List.zip_map' _ _ _
  rw [enumDets, hzip, map_enum_map]
  rw [enumDets, enum_filter_idx p (dfltBox, 0)]
  have hlen : (boxes.zip scores).length = scores.length := by
    rw [List.length_zip, hL, min_self]
  rw [hlen, ← hmask]
  apply List.map_congr_left
  intro i hi
  have hilt : i < scores.length := by
    rw [hmask] at hi
    exact List.mem_range.1 (List.mem_of_mem_filter hi)
  rw [getD_zip dfltBox 0 (hL ▸ hilt) hilt]
  rfl

theorem getD_mem {α : Type} {l : List α} {i : ℕ} (h : i < l.length) (d : α) :
    l.getD i d ∈ l := by
  rw [List.getD_eq_getElem _ _ h]
  exact List.getElem_mem _

theorem getD_map_eq {α : Type} {l : List ℕ} {i : ℕ} (h : i < l.length)
    (f : ℕ → α) (d : α) : (l.map f).getD i d = f (l.getD i 0) := by
  have h2 : i < (l.map f).length := by rw [List.length_map]; exact h
  rw [List.getD_eq_getElem _ _ h2, List.getElem_map, List.getD_eq_getElem _ _ h]

/-! ## Kernel-level facts about the greedy NMS -/

theorem kernel_mem_enum {boxes : List Box} {scores : List ℚ} {thr : ℚ} {d : Det}
    (h : d ∈ nmsAux thr []
      (sortDescBy (fun d : Det => d.2.2) (enumDets boxes scores))) :
    d ∈ enumDets boxes scores :=
  (sortDescBy_perm _ _).mem_iff.1 ((nmsAux_sublist thr _ []).subset h)

theorem nms_pytorch_mem {boxes : List Box} {scores : List ℚ} {thr : ℚ} {i : ℕ}
    (h : i ∈ nms_pytorch boxes scores thr) :
    i < boxes.length ∧ i < scores.length := by
  rw [nms_pytorch] at h
  obtain ⟨d, hd, rfl⟩ := List.mem_map.1 h
  have hm := mem_enumDets (kernel_mem_enum hd)
  exact ⟨hm.1, hm.2.1⟩

theorem nms_pytorch_pairwise (boxes : List Box) (scores : List ℚ) (thr : ℚ) :
    (nms_pytorch boxes scores thr).Pairwise
      fun i j => iou (getB boxes i) (getB boxes j) 0 ≤ thr := by
  rw [nms_pytorch, List.pairwise_map]
  have hp := (nmsAux_pairwise thr
    (sortDescBy (fun d : Det => d.2.2) (enumDets boxes scores)) []).2
  refine hp.imp_of_mem ?_
  intro a b ha hb hab
  have hma := mem_enumDets (kernel_mem_enum ha)
  have hmb := mem_enumDets (kernel_mem_enum hb)
  rwa [hma.2.2.1, hmb.2.2.1] at hab

theorem nms_pytorch_sorted (boxes : List Box) (scores : List ℚ) (thr : ℚ) :
    (nms_pytorch boxes scores thr).Pairwise
      fun i j => getQ scores j ≤ getQ scores i := by
  rw [nms_pytorch, List.pairwise_map]
  have hs : (nmsAux thr []
      (sortDescBy (fun d : Det => d.2.2) (enumDets boxes scores))).Pairwise
      (fun d e : Det => e.2.2 ≤ d.2.2) :=
    List.Pairwise.sublist (nmsAux_sublist thr _ [])
      (sortDescBy_sorted (fun d : Det => d.2.2) (enumDets boxes scores))
  refine hs.imp_of_mem ?_
  intro a b ha hb hab
  have hma := mem_enumDets (kernel_mem_enum ha)
  have hmb := mem_enumDets (kernel_mem_enum hb)
  rwa [hma.2.2.2, hmb.2.2.2] at hab

theorem nms_pytorch_nodup (boxes : List Box) (scores : List ℚ) (thr : ℚ) :
    (nms_pytorch boxes scores thr).Nodup := by
  rw [nms_pytorch]
  have hG : (sortDescBy (fun d : Det => d.2.2) (enumDets boxes scores)).Nodup :=
    (sortDescBy_perm _ _).symm.nodup (nodup_enum _)
  have hK := (nmsAux_sublist thr
    (sortDescBy (fun d : Det => d.2.2) (enumDets boxes scores)) []).nodup hG
  refine List.Nodup.map_on ?_ hK
  intro x hx y hy hxy
  exact enum_fst_inj (kernel_mem_enum hx) (kernel_mem_enum hy) hxy

/-! ## Wrapper-level facts about `nms` -/

theorem nms_fst_eq (boxes : List Box) (scores : List ℚ) (thr : ℚ) (off : ℕ)
    (st : ℚ) (mn : ℤ) :
    (nms boxes scores thr off st mn).1 =
      (nms boxes scores thr off st mn).2.map fun i => (getB boxes i, getQ scores i) :=
  rfl

theorem nms_snd_scores (boxes : List Box) (scores : List ℚ) (thr : ℚ) (off : ℕ)
    (st : ℚ) (mn : ℤ) :
    (nms boxes scores thr off st mn).1.map Prod.snd =
      (nms boxes scores thr off st mn).2.map (getQ scores) := by
  rw [nms_fst_eq, List.map_map]
  rfl

theorem NMSop_forward_neg (boxes : List Box) (scores : List ℚ) (thr : ℚ)
    (off : ℕ) {st : ℚ} (h : ¬ 0 < st) (mn : ℤ) :
    NMSop_forward boxes scores thr off st mn =
      if 0 < mn then (nms_pytorch boxes scores thr).take mn.toNat
      else nms_pytorch boxes scores thr := by
  simp only [NMSop_forward, if_neg h]

theorem NMSop_forward_pos (boxes : List Box) (scores : List ℚ) (thr : ℚ)
    (off : ℕ) {st : ℚ} (h : 0 < st) (mn : ℤ) (va : List ℕ)
    (hva : va = (List.range scores.length).filter fun i =>
      decide (st < scores.getD i 0)) :
    NMSop_forward boxes scores thr off st mn =
      (if 0 < mn
        then (nms_pytorch (va.map fun i => boxes.getD i dfltBox)
            (va.map fun i => scores.getD i 0) thr).take mn.toNat
        else nms_pytorch (va.map fun i => boxes.getD i dfltBox)
            (va.map fun i => scores.getD i 0) thr).map fun i => va.getD i 0 := by
  subst hva
  simp only [NMSop_forward, if_pos h]

theorem nms_snd_plain (boxes : List Box) (scores : List ℚ) (thr : ℚ) (off : ℕ) :
    (nms boxes scores thr off 0 (-1)).2 = nms_pytorch boxes scores thr := by
  show NMSop_forward boxes scores thr off 0 (-1) = nms_pytorch boxes scores thr
  rw [NMSop_forward_neg boxes scores thr off (by norm_num) (-1), if_neg (by norm_num)]

theorem nms_keep_boxes_pairwise (boxes : List Box) (scores : List ℚ) (thr : ℚ)
    (off : ℕ) (st : ℚ) (mn : ℤ) :
    (nms boxes scores thr off st mn).2.Pairwise
      fun i j => iou (getB boxes i) (getB boxes j) 0 ≤ thr := by
  show (NMSop_forward boxes scores thr off st mn).Pairwise _
  by_cases h : 0 < st
  · rw [NMSop_forward_pos boxes scores thr off h mn _ rfl]
    set va := (List.range scores.length).filter
      (fun i => decide (st < scores.getD i 0)) with hva
    set bF := va.map fun i => boxes.getD i dfltBox with hbF
    set sF := va.map fun i => scores.getD i 0 with hsF
    have hsub : (if 0 < mn then (nms_pytorch bF sF thr).take mn.toNat
        else nms_pytorch bF sF thr).Sublist (nms_pytorch bF sF thr) := by
      split
      · exact List.take_sublist _ _
      · exact List.Sublist.refl _
    rw [List.pairwise_map]
    refine List.Pairwise.imp_of_mem ?_
      (List.Pairwise.sublist hsub (nms_pytorch_pairwise bF sF thr))
    intro a b ha hb hab
    have hba := nms_pytorch_mem (hsub.subset ha)
    have hbb := nms_pytorch_mem (hsub.subset hb)
    have hla : a < va.length := by
      have := hba.1
      rwa [hbF, List.length_map] at this
    have hlb : b < va.length := by
      have := hbb.1
      rwa [hbF, List.length_map] at this
    simp only [getB] at hab
    rw [getD_map_eq hla _ _, getD_map_eq hlb _ _] at hab
    exact hab
  · rw [NMSop_forward_neg boxes scores thr off h mn]
    have hsub : (if 0 < mn then (nms_pytorch boxes scores thr).take mn.toNat
        else nms_pytorch boxes scores thr).Sublist (nms_pytorch boxes scores thr) := by
      split
      · exact List.take_sublist _ _
      · exact List.Sublist.refl _
    exact List.Pairwise.sublist hsub (nms_pytorch_pairwise boxes scores thr)

theorem nms_keep_scores_sorted (boxes : List Box) (scores : List ℚ) (thr : ℚ)
    (off : ℕ) (st : ℚ) (mn : ℤ) :
    (nms boxes scores thr off st mn).2.Pairwise
      fun i j => getQ scores j ≤ getQ scores i := by
  show (NMSop_forward boxes scores thr off st mn).Pairwise _
  by_cases h : 0 < st
  · rw [NMSop_forward_pos boxes scores thr off h mn _ rfl]
    set va := (List.range scores.length).filter
      (fun i => decide (st < scores.getD i 0)) with hva
    set bF := va.map fun i => boxes.getD i dfltBox with hbF
    set sF := va.map fun i => scores.getD i 0 with hsF
    have hsub : (if 0 < mn then (nms_pytorch bF sF thr).take mn.toNat
        else nms_pytorch bF sF thr).Sublist (nms_pytorch bF sF thr) := by
      split
      · exact List.take_sublist _ _
      · exact List.Sublist.refl _
    rw [List.pairwise_map]
    refine List.Pairwise.imp_of_mem ?_
      (List.Pairwise.sublist hsub (nms_pytorch_sorted bF sF thr))
    intro a b ha hb hab
    have hba := nms_pytorch_mem (hsub.subset ha)
    have hbb := nms_pytorch_mem (hsub.subset hb)
    have hla : a < va.length := by
      have := hba.2
      rwa [hsF, List.length_map] at this
    have hlb : b < va.length := by
      have := hbb.2
      rwa [hsF, List.length_map] at this
    show getQ scores (va.getD b 0) ≤ getQ scores (va.getD a 0)
    have hga : getQ sF a = getQ scores (va.getD a 0) := by
      rw [hsF]
      exact getD_map_eq hla _ _
    have hgb : getQ sF b = getQ scores (va.getD b 0) := by
      rw [hsF]
      exact getD_map_eq hlb _ _
    rw [← hga, ← hgb]
    exact hab
  · rw [NMSop_forward_neg boxes scores thr off h mn]
    have hsub : (if 0 < mn then (nms_pytorch boxes scores thr).take mn.toNat
        else nms_pytorch boxes scores thr).Sublist (nms_pytorch boxes scores thr) := by
      split
      · exact List.take_sublist _ _
      · exact List.Sublist.refl _
    exact List.Pairwise.sublist hsub (nms_pytorch_sorted boxes scores thr)

/-- The zip of the two projections of a det list is the det list itself. -/
theorem zip_fst_snd {α β : Type} (d : List (α × β)) :
    (d.map Prod.fst).zip (d.map Prod.snd) = d := by
  rw [List.zip_map']
  simp

theorem pairwise_enum {α : Type} {R : α → α → Prop} {d : List α}
    (h : d.Pairwise R) : d.enum.Pairwise fun a b => R a.2 b.2 := by
  refine List.pairwise_map.1 ?_
  rw [List.enum_map_snd]
  exact h

/-- C9: re-running `nms` on its own kept output (kept boxes with their kept
scores, same `iou_threshold` and `offset`, remaining arguments at their
defaults) keeps every detection: the second run returns the first run's
dets unchanged and the identity index list. -/
theorem nms_rerun_keeps_all (boxes : List Box) (scores : List ℚ) (thr : ℚ)
    (off : ℕ) (st : ℚ) (mn : ℤ) :
    nms ((nms boxes scores thr off st mn).1.map Prod.fst)
        ((nms boxes scores thr off st mn).1.map Prod.snd) thr off 0 (-1) =
      ((nms boxes scores thr off st mn).1,
        List.range (nms boxes scores thr off st mn).1.length) := by
  set d := (nms boxes scores thr off st mn).1 with hd
  set b2 := d.map Prod.fst with hb2
  set s2 := d.map Prod.snd with hs2
  have hzip : b2.zip s2 = d := zip_fst_snd d
  have hsorted_d : d.Pairwise fun x y : Box × ℚ => y.2 ≤ x.2 := by
    rw [hd, nms_fst_eq]
    exact List.pairwise_map.2 (nms_keep_scores_sorted boxes scores thr off st mn)
  have hcompat_d : d.Pairwise fun x y : Box × ℚ => iou x.1 y.1 0 ≤ thr := by
    rw [hd, nms_fst_eq]
    exact List.pairwise_map.2 (nms_keep_boxes_pairwise boxes scores thr off st mn)
  have henum_sorted : d.enum.Pairwise fun a b : Det => b.2.2 ≤ a.2.2 :=
    pairwise_enum hsorted_d
  have henum_compat : d.enum.Pairwise fun a b : Det => iou a.2.1 b.2.1 0 ≤ thr :=
    pairwise_enum hcompat_d
  have hker : nms_pytorch b2 s2 thr = List.range d.length := by
    rw [nms_pytorch, enumDets, hzip,
      sortDescBy_of_sorted henum_sorted,
      nmsAux_all_kept thr d.enum [] henum_compat (by intro x _ k hk; cases hk),
      List.enum_map_fst]
  have hsnd : (nms b2 s2 thr off 0 (-1)).2 = List.range d.length := by
    rw [nms_snd_plain, hker]
  have hfst : (nms b2 s2 thr off 0 (-1)).1 = d := by
    rw [nms_fst_eq, hsnd]
    apply List.ext_getElem
    · simp
    · intro i hi hi2
      have hid : i < d.length := by simpa using hi
      have hib : i < b2.length := by rw [hb2, List.length_map]; exact hid
      have his : i < s2.length := by rw [hs2, List.length_map]; exact hid
      have h1 : ((List.range d.length).map
          fun i => (getB b2 i, getQ s2 i))[i] = (getB b2 i, getQ s2 i) := by
        rw [List.getElem_map, List.getElem_range]
      rw [h1]
      have h2 : getB b2 i = d[i].1 := by
        rw [getB, hb2, List.getD_eq_getElem _ _ hib, List.getElem_map]
      have h3 : getQ s2 i = d[i].2 := by
        rw [getQ, hs2, List.getD_eq_getElem _ _ his, List.getElem_map]
      rw [h2, h3]
  exact Prod.ext hfst hsnd

/-! ## Empty-input facts -/

theorem NMSop_forward_empty (thr : ℚ) (off : ℕ) (st : ℚ) (mn : ℤ) :
    NMSop_forward [] [] thr off st mn = [] := by
  by_cases h : 0 < st
  · rw [NMSop_forward_pos [] [] thr off h mn _ rfl]
    simp [nms_pytorch, enumDets, sortDescBy, nmsAux]
  · rw [NMSop_forward_neg [] [] thr off h mn]
    simp [nms_pytorch, enumDets, sortDescBy, nmsAux]

theorem nms_empty (thr : ℚ) (off : ℕ) (st : ℚ) (mn : ℤ) :
    nms [] [] thr off st mn = ([], []) := by
  rw [nms, NMSop_forward_empty]
  rfl

theorem singlePath_empty (thr : ℚ) (mn : ℤ) : singlePath [] [] thr mn [] = ([], []) := by
  rw [singlePath, nms_empty]
  rfl

theorem partPath_empty (idxs : List ℕ) (thr : ℚ) (mn : ℤ) (bN : List Box) :
    partPath [] [] idxs thr mn bN = ([], []) := by
  rw [partPath, partKeep]
  simp only [List.length_nil, List.range_zero, List.filter_nil, sortDescBy]
  split
  · simp
  · simp

theorem nms_snd_sublist_kernel (boxes : List Box) (scores : List ℚ) (thr : ℚ)
    (off : ℕ) (mn : ℤ) :
    (nms boxes scores thr off 0 mn).2.Sublist (nms_pytorch boxes scores thr) := by
  show (NMSop_forward boxes scores thr off 0 mn).Sublist
    (nms_pytorch boxes scores thr)
  rw [NMSop_forward_neg boxes scores thr off (by norm_num) mn]
  split
  · exact List.take_sublist _ _
  · exact List.Sublist.refl _

/-! ## Claim theorems (first group) -/

/-- C1 (code-bug evidence): with `offset = 1`, `nms` keeps both degenerate
boxes `(0,0,0,0)` at `iou_threshold = 1/2` although their offset-1 IoU is
`1 > 1/2`.  The validated `offset` argument never reaches the suppression
kernel (the `NMSop.forward` call to `nms_pytorch` drops it), so IoU is
always computed without the `+offset` term, contradicting the `nms`
docstring "boxes' width or height is (x2 - x1 + offset)". -/
theorem nms_offset_ignored_on_degenerate_boxes :
    (nms [⟨0,0,0,0⟩, ⟨0,0,0,0⟩] [9/10, 8/10] (1/2) 1 0 (-1)).2 = [0, 1] ∧
      (1/2 : ℚ) < iou ⟨0,0,0,0⟩ ⟨0,0,0,0⟩ 1 := by
  constructor
  · show NMSop_forward [⟨0,0,0,0⟩, ⟨0,0,0,0⟩] [9/10, 8/10] (1/2) 1 0 (-1) = [0, 1]
    norm_num [NMSop_forward, nms_pytorch, enumDets, sortDescBy, insertDescBy,
      nmsAux, iou, interArea, interW, interH, boxArea]
  · norm_num [iou, interArea, interW, interH, boxArea]

/-- C10: the `soft_nms` output is identical for `offset = 0` and
`offset = 1`: the argument is validated by the wrapper but, as in the
source, never forwarded to the suppression kernel (for every weight
function `gw` standing for the gaussian decay). -/
theorem soft_nms_offset_independent (gw : ℚ → ℚ → ℚ) (boxes : List Box)
    (scores : List ℚ) (iou_threshold sigma min_score : ℚ) (method : SoftMethod) :
    soft_nms gw boxes scores iou_threshold sigma min_score method 0 =
      soft_nms gw boxes scores iou_threshold sigma min_score method 1 := rfl

/-- C4: `batched_nms` with `nms_cfg = None` performs no suppression: it
returns all `N` detections - the original boxes paired with their scores,
gathered through the sorting indices - sorted by score descending, together
with those indices (a permutation of `0..N-1`). -/
theorem batched_nms_no_cfg (boxes : List Box) (scores : List ℚ) (idxs : List ℕ)
    (ca : Bool) (hL : boxes.length = scores.length) :
    ∃ out, batched_nms boxes scores idxs none ca = .ok out ∧
      out.2.Perm (List.range boxes.length) ∧
      out.1 = out.2.map (fun i => (getB boxes i, getQ scores i)) ∧
      out.1.Pairwise fun a b : Box × ℚ => b.2 ≤ a.2 := by
  refine ⟨_, rfl, ?_, ?_, ?_⟩
  · have h1 : (sortDescBy (fun d : Det => d.2.2) (enumDets boxes scores)).Perm
        (enumDets boxes scores) := sortDescBy_perm _ _
    have h2 := h1.map fun d : Det => d.1
    have h3 : (enumDets boxes scores).map (fun d : Det => d.1) =
        List.range boxes.length := by
      have h4 : (enumDets boxes scores).map Prod.fst =
          List.range (boxes.zip scores).length := List.enum_map_fst _
      rw [List.length_zip, min_eq_left hL.le] at h4
      exact h4
    exact h3 ▸ h2
  · rw [List.map_map]
    apply List.map_congr_left
    intro d hd
    have hm := mem_enumDets ((sortDescBy_perm _ _).mem_iff.1 hd)
    simp only [Function.comp_apply]
    rw [hm.2.2.1, hm.2.2.2]
  · exact List.pairwise_map.2 (sortDescBy_sorted _ _)

/-- C7 (amended): an empty input (`N = 0`) yields empty outputs for `nms`,
`soft_nms`, `nms_match`, `nms_quadri`, and for `batched_nms` when the
config is absent or the call is class-agnostic; but `batched_nms` with a
config in the per-class path raises, because `boxes.max()` is a reduction
over an empty tensor. -/
theorem empty_input_behavior (thr sigma min_score st : ℚ) (off : ℕ) (mn : ℤ)
    (gw : ℚ → ℚ → ℚ) (m : SoftMethod) (labels : Option (List ℕ))
    (scoresQ : List ℚ) (idxs : List ℕ) (ca : Bool) (cfg : NmsCfg) :
    nms [] [] thr off st mn = ([], []) ∧
    soft_nms gw [] [] thr sigma min_score m off = ([], []) ∧
    nms_match [] thr = [] ∧
    nms_quadri [] scoresQ thr labels = (.inl [], none) ∧
    batched_nms [] [] idxs none ca = .ok ([], []) ∧
    batched_nms [] [] idxs (some cfg) true = .ok ([], []) ∧
    batched_nms [] [] idxs (some cfg) false =
      .error "max(): Expected reduction dim to be specified for input.numel() == 0" := by
  refine ⟨nms_empty thr off st mn, rfl, rfl, rfl, rfl, ?_, rfl⟩
  show (if ([] : List Box).length < cfg.splitThr
      then Except.ok (singlePath [] [] cfg.iouThreshold cfg.maxNum [])
      else Except.ok (partPath [] [] idxs cfg.iouThreshold cfg.maxNum [])) =
    Except.ok (([] : List (Box × ℚ)), ([] : List ℕ))
  split
  · rw [singlePath_empty]
  · rw [partPath_empty]

/-- C7 counterexample: for `batched_nms` an empty input is an error, not an
empty output, whenever a config is present and the call is not
class-agnostic: the offset trick starts with `boxes.max()`, which raises on
an empty tensor. -/
theorem batched_nms_empty_error :
    batched_nms [] [] [] (some ⟨1/2, 10000, -1⟩) false =
      .error "max(): Expected reduction dim to be specified for input.numel() == 0" :=
  rfl

/-- C8: with `score_threshold > 0`, `nms` first drops every detection whose
score is not above the threshold, runs suppression on the surviving rows
only, and maps the kept positions back to the original indexing: every
returned index carries a score above the threshold, and the call equals the
composition "filter positions, run `nms` with threshold 0 on the sliced
arrays, re-index the kept positions through the filter map". -/
theorem nms_score_filter (boxes : List Box) (scores : List ℚ) (thr : ℚ)
    (off : ℕ) (mn : ℤ) {st : ℚ} (h : 0 < st) :
    (∀ i ∈ (nms boxes scores thr off st mn).2, st < getQ scores i) ∧
    ∀ va, va = (List.range scores.length).filter
        (fun i => decide (st < scores.getD i 0)) →
      nms boxes scores thr off st mn =
        ((nms (va.map fun i => boxes.getD i dfltBox)
            (va.map fun i => scores.getD i 0) thr off 0 mn).1,
         (nms (va.map fun i => boxes.getD i dfltBox)
            (va.map fun i => scores.getD i 0) thr off 0 mn).2.map
           fun i => va.getD i 0) := by
  have hsnd : ∀ va, va = (List.range scores.length).filter
      (fun i => decide (st < scores.getD i 0)) →
      (nms boxes scores thr off st mn).2 =
        ((nms (va.map fun i => boxes.getD i dfltBox)
            (va.map fun i => scores.getD i 0) thr off 0 mn).2).map
          fun i => va.getD i 0 := by
    intro va hva
    show NMSop_forward boxes scores thr off st mn = _
    rw [NMSop_forward_pos boxes scores thr off h mn va hva]
    congr 1
  constructor
  · intro i hi
    rw [hsnd _ rfl] at hi
    obtain ⟨j, hj, rfl⟩ := List.mem_map.1 hi
    have hsub := nms_snd_sublist_kernel (((List.range scores.length).filter
          (fun i => decide (st < scores.getD i 0))).map fun i => boxes.getD i dfltBox)
        (((List.range scores.length).filter
          (fun i => decide (st < scores.getD i 0))).map fun i => scores.getD i 0)
        thr off mn
    have hjb := nms_pytorch_mem (hsub.subset hj)
    have hjl : j < ((List.range scores.length).filter
        (fun i => decide (st < scores.getD i 0))).length := by
      have := hjb.2
      rwa [List.length_map] at this
    have hmem : ((List.range scores.length).filter
        (fun i => decide (st < scores.getD i 0))).getD j 0 ∈
        (List.range scores.length).filter
          (fun i => decide (st < scores.getD i 0)) := getD_mem hjl 0
    exact of_decide_eq_true (List.mem_filter.1 hmem).2
  · intro va hva
    refine Prod.ext ?_ (hsnd va hva)
    rw [nms_fst_eq, nms_fst_eq, hsnd va hva, List.map_map]
    apply List.map_congr_left
    intro j hj
    have hsub := nms_snd_sublist_kernel (va.map fun i => boxes.getD i dfltBox)
      (va.map fun i => scores.getD i 0) thr off mn
    have hjb := nms_pytorch_mem (hsub.subset hj)
    have hjl : j < va.length := by
      have := hjb.2
      rwa [List.length_map] at this
    simp only [Function.comp_apply]
    have h2 : getB boxes (va.getD j 0) =
        getB (va.map fun i => boxes.getD i dfltBox) j := by
      simp only [getB]
      rw [getD_map_eq hjl]
    have h3 : getQ scores (va.getD j 0) =
        getQ (va.map fun i => scores.getD i 0) j := by
      simp only [getQ]
      rw [getD_map_eq hjl]
    rw [h2, h3]

/-- Witness for C4 at a concrete two-detection input. -/
theorem batched_nms_no_cfg_witness :
    ∃ out, batched_nms [⟨0,0,1,1⟩, ⟨2,2,3,3⟩] [1/2, 3/4] [0, 1] none false = .ok out ∧
      out.2.Perm (List.range ([⟨0,0,1,1⟩, ⟨2,2,3,3⟩] : List Box).length) ∧
      out.1 = out.2.map (fun i =>
        (getB [⟨0,0,1,1⟩, ⟨2,2,3,3⟩] i, getQ [1/2, 3/4] i)) ∧
      out.1.Pairwise (fun a b : Box × ℚ => b.2 ≤ a.2) :=
  batched_nms_no_cfg [⟨0,0,1,1⟩, ⟨2,2,3,3⟩] [1/2, 3/4] [0, 1] false rfl

/-- Witness for C8 at a concrete input with `score_threshold = 1/4`. -/
theorem nms_score_filter_witness :
    (∀ i ∈ (nms [⟨0,0,1,1⟩, ⟨0,0,1,1⟩] [1/2, 1/8] (1/2) 0 (1/4) (-1)).2,
      (1/4 : ℚ) < getQ [1/2, 1/8] i) ∧
    ∀ va, va = (List.range ([1/2, 1/8] : List ℚ).length).filter
        (fun i => decide ((1/4 : ℚ) < ([1/2, 1/8] : List ℚ).getD i 0)) →
      nms [⟨0,0,1,1⟩, ⟨0,0,1,1⟩] [1/2, 1/8] (1/2) 0 (1/4) (-1) =
        ((nms (va.map fun i => ([⟨0,0,1,1⟩, ⟨0,0,1,1⟩] : List Box).getD i dfltBox)
            (va.map fun i => ([1/2, 1/8] : List ℚ).getD i 0) (1/2) 0 0 (-1)).1,
         (nms (va.map fun i => ([⟨0,0,1,1⟩, ⟨0,0,1,1⟩] : List Box).getD i dfltBox)
            (va.map fun i => ([1/2, 1/8] : List ℚ).getD i 0) (1/2) 0 0 (-1)).2.map
           fun i => va.getD i 0) :=
  nms_score_filter [⟨0,0,1,1⟩, ⟨0,0,1,1⟩] [1/2, 1/8] (1/2) 0 (-1) (by norm_num)

/-! ## Grouping lemmas for `nms_match` -/

theorem filter_not_append_filter_perm {α : Type} (p : α → Bool) (l : List α) :
    ((l.filter fun e => !p e) ++ l.filter p).Perm l :=
  (List.perm_append_comm).trans (List.filter_append_perm p l)

theorem groupScan_flatten_perm (thr : ℚ) : ∀ (n : ℕ) (l : List Det),
    l.length ≤ n → ((groupScan thr l).flatten).Perm (l.map (·.1)) := by
  intro n
  induction n with
  | zero =>
    intro l hl
    rw [List.length_eq_zero.1 (Nat.le_zero.1 hl)]
    simp [groupScan]
  | succ n ih =>
    intro l hl
    match l with
    | [] => simp [groupScan]
    | d :: ds =>
      rw [groupScan, List.flatten_cons, List.map_cons, List.cons_append]
      refine List.Perm.cons d.1 ?_
      have hrest := ih (ds.filter fun e => decide (iou d.2.1 e.2.1 0 ≤ thr))
        (le_trans (List.length_filter_le _ _) (Nat.le_of_succ_le_succ hl))
      refine (List.Perm.append_left
        ((ds.filter fun e => !decide (iou d.2.1 e.2.1 0 ≤ thr)).map (·.1))
        (hrest.trans (List.Perm.refl _))).trans ?_
      rw [← List.map_append]
      exact List.Perm.map (fun x : Det => x.1)
        (filter_not_append_filter_perm
          (fun e : Det => decide (iou d.2.1 e.2.1 0 ≤ thr)) ds)

theorem groupScan_head_max (thr : ℚ) (F : ℕ → ℚ) : ∀ (n : ℕ) (l : List Det),
    l.length ≤ n →
    l.Pairwise (fun a b : Det => b.2.2 ≤ a.2.2) →
    (∀ x ∈ l, F x.1 = x.2.2) →
    ∀ g ∈ groupScan thr l, ∃ h t, g = h :: t ∧ ∀ j ∈ t, F j ≤ F h := by
  intro n
  induction n with
  | zero =>
    intro l hl _ _ g hg
    rw [List.length_eq_zero.1 (Nat.le_zero.1 hl)] at hg
    simp [groupScan] at hg
  | succ n ih =>
    intro l hl hsorted hF g hg
    match l with
    | [] => simp [groupScan] at hg
    | d :: ds =>
      rw [groupScan] at hg
      rw [List.pairwise_cons] at hsorted
      rcases List.mem_cons.1 hg with rfl | hg2
      · refine ⟨d.1, _, rfl, ?_⟩
        intro j hj
        obtain ⟨e, he, rfl⟩ := List.mem_map.1 hj
        have heds : e ∈ ds := List.mem_of_mem_filter he
        rw [hF e (List.mem_cons_of_mem d heds), hF d (List.mem_cons_self d ds)]
        exact hsorted.1 e heds
      · exact ih (ds.filter fun e => decide (iou d.2.1 e.2.1 0 ≤ thr))
          (le_trans (List.length_filter_le _ _) (Nat.le_of_succ_le_succ hl))
          (hsorted.2.filter _)
          (fun x hx => hF x (List.mem_cons_of_mem d (List.mem_of_mem_filter hx)))
          g hg2

/-- C6: the groups returned by `nms_match` partition the index range
`{0, ..., N-1}` exactly - every index appears in exactly one group (the
flattened groups are a permutation of `range N`) - and each group's first
element has the maximum score within its group.  (The claim restricts to
non-empty inputs; the statement holds for empty input as well, where the
group list is empty.) -/
theorem nms_match_partition (dets : List (Box × ℚ)) (thr : ℚ) :
    ((nms_match dets thr).flatten).Perm (List.range dets.length) ∧
    ∀ g ∈ nms_match dets thr, ∃ h t, g = h :: t ∧
      ∀ j ∈ t, (dets.getD j (dfltBox, 0)).2 ≤ (dets.getD h (dfltBox, 0)).2 := by
  by_cases hd : dets.length = 0
  · rw [nms_match, if_pos hd]
    exact ⟨by simp [hd], by simp⟩
  · rw [nms_match, if_neg hd]
    have hperm : (sortDescBy (fun d : Det => d.2.2) dets.enum).Perm dets.enum :=
      sortDescBy_perm _ _
    constructor
    · have h1 := groupScan_flatten_perm thr
        (sortDescBy (fun d : Det => d.2.2) dets.enum).length
        (sortDescBy (fun d : Det => d.2.2) dets.enum) le_rfl
      have h2 := hperm.map fun x : Det => x.1
      have h3 : dets.enum.map (fun x : Det => x.1) = List.range dets.length :=
        List.enum_map_fst dets
      rw [h3] at h2
      exact h1.trans h2
    · have hsorted := sortDescBy_sorted (fun d : Det => d.2.2) dets.enum
      have hF : ∀ x ∈ sortDescBy (fun d : Det => d.2.2) dets.enum,
          (dets.getD x.1 (dfltBox, 0)).2 = x.2.2 := by
        intro x hx
        have hg := (mem_enum_getD (hperm.mem_iff.1 hx) (dfltBox, 0)).2
        rw [hg]
      exact groupScan_head_max thr (fun j => (dets.getD j (dfltBox, 0)).2)
        (sortDescBy (fun d : Det => d.2.2) dets.enum).length _ le_rfl hsorted hF

/-! ## Translation invariance of the kernel, and the offset boxes -/

theorem sortDescBy_map_key {α β : Type} (f : β → ℚ) (f2 : α → ℚ) (g : α → β)
    (hk : ∀ x, f (g x) = f2 x) (l : List α) :
    sortDescBy f (l.map g) = (sortDescBy f2 l).map g := by
  rw [sortDescBy_map]
  congr 1
  exact congrArg (fun h => sortDescBy h l) (funext hk)

theorem nms_pytorch_shift (boxes : List Box) (scores : List ℚ) (thr o : ℚ) :
    nms_pytorch (boxes.map fun b => shiftBox b o) scores thr =
      nms_pytorch boxes scores thr := by
  rw [nms_pytorch, nms_pytorch]
  have h1 : enumDets (boxes.map fun b => shiftBox b o) scores =
      (enumDets boxes scores).map fun d : Det => (d.1, shiftBox d.2.1 o, d.2.2) := by
    rw [enumDets, enumDets, List.zip_map_left, List.enum_map]
    apply List.map_congr_left
    intro x _
    rfl
  rw [h1, sortDescBy_map_key (fun d : Det => d.2.2) (fun d : Det => d.2.2)
    (fun d : Det => (d.1, shiftBox d.2.1 o, d.2.2)) (fun x => rfl)]
  have h2 := nmsAux_map thr (fun d : Det => (d.1, shiftBox d.2.1 o, d.2.2))
    (fun a b => iou_shift a.2.1 b.2.1 o 0)
    (sortDescBy (fun d : Det => d.2.2) (enumDets boxes scores)) []
  rw [show (([] : List Det).map fun d : Det => (d.1, shiftBox d.2.1 o, d.2.2)) =
    ([] : List Det) from rfl] at h2
  rw [h2, List.map_map]
  rfl

theorem getB_boxesForNmsOf (boxes : List Box) (idxs : List ℕ) {i : ℕ}
    (hi : i < boxes.length) (hii : i < idxs.length) :
    getB (boxesForNmsOf boxes idxs) i =
      shiftBox (getB boxes i) ((getN idxs i : ℚ) * (maxCoordinate boxes + 1)) := by
  rw [getB, boxesForNmsOf]
  have hz : i < (boxes.zip idxs).length := by
    rw [List.length_zip]
    exact lt_min hi hii
  rw [List.getD_eq_getElem _ _ (by rw [List.length_map]; exact hz),
    List.getElem_map, List.getElem_zip]
  rw [getB, getN, List.getD_eq_getElem _ _ hi, List.getD_eq_getElem _ _ hii]

theorem mem_classMaskL {idxs : List ℕ} {c i : ℕ} (h : i ∈ classMaskL idxs c) :
    i < idxs.length ∧ getN idxs i = c := by
  have h2 := List.mem_filter.1 h
  exact ⟨List.mem_range.1 h2.1, of_decide_eq_true h2.2⟩

theorem slice_boxesForNms (boxes : List Box) (idxs : List ℕ)
    (hL : idxs.length = boxes.length) (c : ℕ) :
    (classMaskL idxs c).map (getB (boxesForNmsOf boxes idxs)) =
      ((classMaskL idxs c).map (getB boxes)).map
        fun b => shiftBox b ((c : ℚ) * (maxCoordinate boxes + 1)) := by
  rw [List.map_map]
  apply List.map_congr_left
  intro i hi
  obtain ⟨hlt, hc⟩ := mem_classMaskL hi
  show getB (boxesForNmsOf boxes idxs) i =
    shiftBox (getB boxes i) ((c : ℚ) * (maxCoordinate boxes + 1))
  rw [getB_boxesForNmsOf boxes idxs (hL ▸ hlt) hlt, hc]

theorem classKeepG_shift (boxes : List Box) (scores : List ℚ) (idxs : List ℕ)
    (thr : ℚ) (c : ℕ) (hL : idxs.length = boxes.length) :
    classKeepG (boxesForNmsOf boxes idxs) scores idxs thr c =
      classKeepG boxes scores idxs thr c := by
  rw [classKeepG, classKeepG]
  rw [nms_snd_plain, nms_snd_plain, slice_boxesForNms boxes idxs hL c,
    nms_pytorch_shift]

/-- A per-class run of the op (`classKeepG`) computes exactly the class-`c`
restriction of the global greedy scan, whenever cross-class pairs can never
suppress each other. -/
theorem classKeepG_eq_filter (boxesN : List Box) (scores : List ℚ)
    (idxs : List ℕ) (thr : ℚ) (c : ℕ)
    (hL : boxesN.length = scores.length) (hI : idxs.length = scores.length)
    (Hsep : ∀ x ∈ enumDets boxesN scores, ∀ y ∈ enumDets boxesN scores,
      getN idxs x.1 ≠ getN idxs y.1 → iou x.2.1 y.2.1 0 ≤ thr) :
    classKeepG boxesN scores idxs thr c =
      ((nmsAux thr [] (sortDescBy (fun d : Det => d.2.2)
          (enumDets boxesN scores))).filter
        fun d : Det => decide (getN idxs d.1 = c)).map (fun d : Det => d.1) := by
  have hmask : classMaskL idxs c =
      (List.range scores.length).filter fun i => decide (getN idxs i = c) := by
    rw [classMaskL, hI]
  simp only [classKeepG]
  rw [nms_snd_plain, nms_pytorch, List.map_map]
  have h0 : (getN (classMaskL idxs c) ∘ fun d : Det => d.1) =
      (fun d : Det => d.1) ∘
        (fun d : Det => (((classMaskL idxs c).getD d.1 0 : ℕ), d.2)) := rfl
  rw [h0, ← List.map_map]
  congr 1
  have e2 := nmsAux_map thr
    (fun d : Det => (((classMaskL idxs c).getD d.1 0 : ℕ), d.2))
    (fun a b => rfl)
    (sortDescBy (fun d : Det => d.2.2) (enumDets
      ((classMaskL idxs c).map (getB boxesN))
      ((classMaskL idxs c).map (getQ scores)))) []
  rw [show (([] : List Det).map fun d : Det =>
    (((classMaskL idxs c).getD d.1 0 : ℕ), d.2)) = ([] : List Det) from rfl] at e2
  rw [← e2]
  rw [← sortDescBy_map_key (fun d : Det => d.2.2) (fun d : Det => d.2.2)
    (fun d : Det => (((classMaskL idxs c).getD d.1 0 : ℕ), d.2)) (fun x => rfl)]
  rw [sliceEnum_eq_filter boxesN scores (fun i => decide (getN idxs i = c)) hL
    (classMaskL idxs c) hmask]
  rw [← sortDescBy_filter]
  have e3 := nmsAux_filter_class thr (fun d : Det => getN idxs d.1) c
    (sortDescBy (fun d : Det => d.2.2) (enumDets boxesN scores)) []
    (by
      intro x hx y hy hne
      rw [List.nil_append] at hx hy
      exact Hsep x ((sortDescBy_perm _ _).mem_iff.1 hx)
        y ((sortDescBy_perm _ _).mem_iff.1 hy) hne)
  rw [show (([] : List Det).filter fun d : Det =>
    decide (getN idxs d.1 = c)) = ([] : List Det) from rfl] at e3
  exact e3.symm

/-! ## Membership and duplicate-freeness of the merged per-class keeps -/

theorem le_foldr_max (idxs : List ℕ) : ∀ x ∈ idxs, x ≤ idxs.foldr max 0 := by
  induction idxs with
  | nil => intro x hx; cases hx
  | cons a as ih =>
    intro x hx
    rcases List.mem_cons.1 hx with rfl | hx2
    · exact le_max_left _ _
    · exact le_trans (ih x hx2) (le_max_right _ _)

theorem mem_uniqueSorted {idxs : List ℕ} {c : ℕ} :
    c ∈ uniqueSorted idxs ↔ c ∈ idxs := by
  rw [uniqueSorted]
  constructor
  · intro h
    exact of_decide_eq_true (List.mem_filter.1 h).2
  · intro h
    refine List.mem_filter.2 ⟨?_, decide_eq_true h⟩
    exact List.mem_range.2 (Nat.lt_succ_of_le (le_foldr_max idxs c h))

theorem uniqueSorted_nodup (idxs : List ℕ) : (uniqueSorted idxs).Nodup :=
  List.Nodup.filter _ (List.nodup_range _)

theorem boxesForNmsOf_length (boxes : List Box) (idxs : List ℕ) :
    (boxesForNmsOf boxes idxs).length = min boxes.length idxs.length := by
  rw [boxesForNmsOf, List.length_map, List.length_zip]

theorem classKeepG_subset {boxesN : List Box} {scores : List ℚ} {idxs : List ℕ}
    {thr : ℚ} {c i : ℕ} (h : i ∈ classKeepG boxesN scores idxs thr c) :
    i ∈ classMaskL idxs c := by
  simp only [classKeepG] at h
  rw [nms_snd_plain] at h
  obtain ⟨j, hj, rfl⟩ := List.mem_map.1 h
  have hb := nms_pytorch_mem hj
  have hjl : j < (classMaskL idxs c).length := by
    have := hb.1
    rwa [List.length_map] at this
  exact getD_mem hjl 0

theorem classKeepG_nodup (boxesN : List Box) (scores : List ℚ) (idxs : List ℕ)
    (thr : ℚ) (c : ℕ) : (classKeepG boxesN scores idxs thr c).Nodup := by
  simp only [classKeepG]
  rw [nms_snd_plain]
  refine List.Nodup.map_on ?_ (nms_pytorch_nodup _ _ _)
  intro x hx y hy hxy
  have hbx := nms_pytorch_mem hx
  have hby := nms_pytorch_mem hy
  have hxl : x < (classMaskL idxs c).length := by
    have := hbx.1
    rwa [List.length_map] at this
  have hyl : y < (classMaskL idxs c).length := by
    have := hby.1
    rwa [List.length_map] at this
  have hnd : (classMaskL idxs c).Nodup := List.Nodup.filter _ (List.nodup_range _)
  rw [getN, getN, List.getD_eq_getElem _ _ hxl, List.getD_eq_getElem _ _ hyl] at hxy
  exact (hnd.getElem_inj_iff).1 hxy

theorem classKeepG_disjoint (boxesN : List Box) (scores : List ℚ) (idxs : List ℕ)
    (thr : ℚ) {c c2 : ℕ} (hne : c ≠ c2) :
    List.Disjoint (classKeepG boxesN scores idxs thr c)
      (classKeepG boxesN scores idxs thr c2) := by
  intro i hi hi2
  have h1 := (mem_classMaskL (classKeepG_subset hi)).2
  have h2 := (mem_classMaskL (classKeepG_subset hi2)).2
  exact hne (h1.symm.trans h2)

theorem perClassMergedKeep_nodup (boxes : List Box) (scores : List ℚ)
    (idxs : List ℕ) (thr : ℚ) : (perClassMergedKeep boxes scores idxs thr).Nodup := by
  rw [perClassMergedKeep, List.nodup_flatten]
  constructor
  · intro l hl
    obtain ⟨c, _, rfl⟩ := List.mem_map.1 hl
    exact classKeepG_nodup _ _ _ _ _
  · refine List.Pairwise.map _ ?_ (uniqueSorted_nodup idxs)
    intro a b hab
    exact classKeepG_disjoint _ _ _ _ hab

theorem mem_perClassMergedKeep {boxes : List Box} {scores : List ℚ}
    {idxs : List ℕ} {thr : ℚ} {i : ℕ} :
    i ∈ perClassMergedKeep boxes scores idxs thr ↔
      ∃ c ∈ uniqueSorted idxs, i ∈ classKeepG boxes scores idxs thr c := by
  rw [perClassMergedKeep, List.mem_flatten]
  constructor
  · rintro ⟨l, hl, hil⟩
    obtain ⟨c, hc, rfl⟩ := List.mem_map.1 hl
    exact ⟨c, hc, hil⟩
  · rintro ⟨c, hc, hic⟩
    exact ⟨_, List.mem_map_of_mem _ hc, hic⟩

/-- After the offset trick (non-negative coordinates), detections of
different classes can never suppress each other. -/
theorem sep_boxesForNms (boxes : List Box) (scores : List ℚ) (idxs : List ℕ)
    (thr : ℚ) (hthr : 0 ≤ thr)
    (hpos : ∀ b ∈ boxes, 0 ≤ b.x1 ∧ 0 ≤ b.y1 ∧ 0 ≤ b.x2 ∧ 0 ≤ b.y2) :
    ∀ x ∈ enumDets (boxesForNmsOf boxes idxs) scores,
    ∀ y ∈ enumDets (boxesForNmsOf boxes idxs) scores,
      getN idxs x.1 ≠ getN idxs y.1 → iou x.2.1 y.2.1 0 ≤ thr := by
  intro x hx y hy hne
  have hmx := mem_enumDets hx
  have hmy := mem_enumDets hy
  have hxb : x.1 < boxes.length ∧ x.1 < idxs.length := by
    have := hmx.1
    rwa [boxesForNmsOf_length, lt_min_iff] at this
  have hyb : y.1 < boxes.length ∧ y.1 < idxs.length := by
    have := hmy.1
    rwa [boxesForNmsOf_length, lt_min_iff] at this
  rw [hmx.2.2.1, hmy.2.2.1,
    getB_boxesForNmsOf boxes idxs hxb.1 hxb.2,
    getB_boxesForNmsOf boxes idxs hyb.1 hyb.2]
  have hax := hpos (getB boxes x.1) (getD_mem hxb.1 dfltBox)
  have hay := hpos (getB boxes y.1) (getD_mem hyb.1 dfltBox)
  have hcx := @coord_le_maxCoordinate boxes _ (getD_mem hxb.1 dfltBox)
  have hcy := @coord_le_maxCoordinate boxes _ (getD_mem hyb.1 dfltBox)
  have hM : 0 ≤ maxCoordinate boxes := le_trans hax.1 hcx.1
  rw [iou_sep hax.1 hcx.2.2.1 hay.1 hcy.2.2.1 hM hne]
  exact hthr

/-- The single global pass over the offset boxes keeps exactly the union of
the per-class keeps over the original boxes (as sets). -/
theorem singleKeep_perm_merged (boxes : List Box) (scores : List ℚ)
    (idxs : List ℕ) (thr : ℚ) (hthr : 0 ≤ thr)
    (hL : boxes.length = scores.length) (hI : idxs.length = scores.length)
    (hpos : ∀ b ∈ boxes, 0 ≤ b.x1 ∧ 0 ≤ b.y1 ∧ 0 ≤ b.x2 ∧ 0 ≤ b.y2) :
    ((nms (boxesForNmsOf boxes idxs) scores thr 0 0 (-1)).2).Perm
      (perClassMergedKeep boxes scores idxs thr) := by
  have hLN : (boxesForNmsOf boxes idxs).length = scores.length := by
    rw [boxesForNmsOf_length, hL, hI, min_self]
  have Hsep := sep_boxesForNms boxes scores idxs thr hthr hpos
  have hIB : idxs.length = boxes.length := hI.trans hL.symm
  rw [nms_snd_plain]
  refine (List.perm_ext_iff_of_nodup (nms_pytorch_nodup _ _ _)
    (perClassMergedKeep_nodup _ _ _ _)).2 ?_
  intro i
  rw [mem_perClassMergedKeep]
  constructor
  · intro hi
    rw [nms_pytorch] at hi
    obtain ⟨d, hd, rfl⟩ := List.mem_map.1 hi
    have hdm := mem_enumDets (kernel_mem_enum hd)
    have hdi : d.1 < idxs.length := by
      rw [hI]
      exact hLN ▸ hdm.1
    refine ⟨getN idxs d.1, mem_uniqueSorted.2 (getD_mem hdi 0), ?_⟩
    rw [← classKeepG_shift boxes scores idxs thr _ hIB,
      classKeepG_eq_filter _ _ _ _ _ hLN hI Hsep]
    refine List.mem_map.2 ⟨d, ?_, rfl⟩
    exact List.mem_filter.2 ⟨hd, decide_eq_true rfl⟩
  · rintro ⟨c, _, hic⟩
    rw [← classKeepG_shift boxes scores idxs thr c hIB,
      classKeepG_eq_filter _ _ _ _ _ hLN hI Hsep] at hic
    obtain ⟨d, hd, rfl⟩ := List.mem_map.1 hic
    rw [nms_pytorch]
    exact List.mem_map_of_mem _ (List.mem_of_mem_filter hd)

/-- The split loop marks exactly the union of the per-class keeps over the
original boxes (as sets): within a partition the offset is a uniform
translation, so the per-partition run on the offset boxes keeps the same
positions as on the original boxes. -/
theorem partKeep_perm_merged (boxes : List Box) (scores : List ℚ)
    (idxs : List ℕ) (thr : ℚ)
    (hL : boxes.length = scores.length) (hI : idxs.length = scores.length) :
    (partKeep (boxesForNmsOf boxes idxs) scores idxs thr).Perm
      (perClassMergedKeep boxes scores idxs thr) := by
  have hIB : idxs.length = boxes.length := hI.trans hL.symm
  refine (List.perm_ext_iff_of_nodup
    (List.Nodup.filter _ (List.nodup_range _))
    (perClassMergedKeep_nodup _ _ _ _)).2 ?_
  intro i
  rw [List.mem_filter, List.mem_range, mem_perClassMergedKeep]
  constructor
  · rintro ⟨hilt, hdec⟩
    have hic := of_decide_eq_true hdec
    rw [classKeepG_shift boxes scores idxs thr _ hIB] at hic
    have hii : i < idxs.length := by
      rw [hI]
      exact hilt
    exact ⟨getN idxs i, mem_uniqueSorted.2 (getD_mem hii 0), hic⟩
  · rintro ⟨c, _, hic⟩
    have hmask := mem_classMaskL (classKeepG_subset hic)
    have hilt : i < scores.length := by
      rw [← hI]
      exact hmask.1
    refine ⟨hilt, decide_eq_true ?_⟩
    rw [classKeepG_shift boxes scores idxs thr _ hIB, hmask.2]
    exact hic

/-- Whenever each per-class run on `boxesN` agrees with the per-class run on
the original boxes (for instance because `boxesN` shifts each class
uniformly), the split loop's mask equals the spec's union of per-class
keeps, position by position. -/
theorem partKeep_eq_union (boxesN boxes : List Box) (scores : List ℚ)
    (idxs : List ℕ) (thr : ℚ)
    (hck : ∀ c, classKeepG boxesN scores idxs thr c =
      classKeepG boxes scores idxs thr c) :
    partKeep boxesN scores idxs thr =
      (List.range scores.length).filter fun i =>
        decide (∃ c ∈ uniqueSorted idxs, i ∈ classKeepG boxes scores idxs thr c) := by
  rw [partKeep]
  refine List.filter_congr ?_
  intro i _
  rw [decide_eq_decide]
  constructor
  · intro h
    rw [hck] at h
    have hm := mem_classMaskL (classKeepG_subset h)
    exact ⟨getN idxs i, mem_uniqueSorted.2 (getD_mem hm.1 0), h⟩
  · rintro ⟨c, _, hc⟩
    have hcm := (mem_classMaskL (classKeepG_subset hc)).2
    rw [hck, hcm]
    exact hc

/-- Under the same agreement hypothesis, the whole split branch computes the
spec's composition: union of per-class keeps, score-descending re-sort,
`max_num` cap, original boxes re-attached. -/
theorem partPath_eq_spec (boxes boxesN : List Box) (scores : List ℚ)
    (idxs : List ℕ) (thr : ℚ) (mn : ℤ)
    (hck : ∀ c, classKeepG boxesN scores idxs thr c =
      classKeepG boxes scores idxs thr c) :
    partPath boxes scores idxs thr mn boxesN =
      batchedSpecSplit boxes scores idxs thr mn := by
  simp only [partPath, batchedSpecSplit]
  rw [partKeep_eq_union boxesN boxes scores idxs thr hck]

/-- C2 (amended): for inputs with non-negative box coordinates and a
non-negative IoU threshold (with the default `max_num`), both code paths of
`batched_nms` - the single offset-trick pass and the `N >= split_thr`
partitioned loop - keep the same index set as running plain per-class NMS
on the original coordinates and merging: the kept indices are a permutation
of the merged per-class keeps (order differing only by the final descending
score sort).  Without the non-negativity restriction the claim is false
(see the counterexample). -/
theorem batched_nms_perm_perClass (boxes : List Box) (scores : List ℚ)
    (idxs : List ℕ) (thr : ℚ) (st : ℕ)
    (hthr : 0 ≤ thr) (hne : boxes ≠ [])
    (hL : boxes.length = scores.length) (hI : idxs.length = scores.length)
    (hpos : ∀ b ∈ boxes, 0 ≤ b.x1 ∧ 0 ≤ b.y1 ∧ 0 ≤ b.x2 ∧ 0 ≤ b.y2) :
    ∃ out, batched_nms boxes scores idxs (some ⟨thr, st, -1⟩) false = .ok out ∧
      out.2.Perm (perClassMergedKeep boxes scores idxs thr) := by
  have h1 : batched_nms boxes scores idxs (some ⟨thr, st, -1⟩) false =
      if (boxesForNmsOf boxes idxs).length < st then
        .ok (singlePath boxes scores thr (-1) (boxesForNmsOf boxes idxs))
      else .ok (partPath boxes scores idxs thr (-1) (boxesForNmsOf boxes idxs)) := by
    simp only [batched_nms, Bool.false_eq_true, if_false,
      List.isEmpty_eq_false.2 hne]
  rcases lt_or_ge (boxesForNmsOf boxes idxs).length st with hlt | hge
  · rw [h1, if_pos hlt]
    refine ⟨_, rfl, ?_⟩
    show ((nms (boxesForNmsOf boxes idxs) scores thr 0 0 (-1)).2).Perm _
    exact singleKeep_perm_merged boxes scores idxs thr hthr hL hI hpos
  · rw [h1, if_neg (not_lt.2 hge)]
    refine ⟨_, rfl, ?_⟩
    have h2 : (partPath boxes scores idxs thr (-1) (boxesForNmsOf boxes idxs)).2 =
        sortDescBy (getQ scores)
          (partKeep (boxesForNmsOf boxes idxs) scores idxs thr) := by
      simp only [partPath]
      rw [if_neg (by norm_num : ¬ (0:ℤ) < -1)]
    show (partPath boxes scores idxs thr (-1) (boxesForNmsOf boxes idxs)).2.Perm _
    rw [h2]
    exact (sortDescBy_perm _ _).trans
      (partKeep_perm_merged boxes scores idxs thr hL hI)

/-- C2 counterexample: with negative coordinates the offset multiplier
`max_coordinate + 1` is `0`, classes are not separated, and the single
offset-trick pass suppresses across classes: on two identical boxes of
different classes the kept set is `[0]`, while plain per-class NMS merged
keeps `[0, 1]` - so the claimed equivalence fails "for every input". -/
theorem batched_nms_not_perClass_on_negative_coords :
    keepOf (batched_nms [⟨-2,-2,-1,-1⟩, ⟨-2,-2,-1,-1⟩] [1, 1/2] [0, 1]
      (some ⟨1/2, 10000, -1⟩) false) = [0] ∧
    perClassMergedKeep [⟨-2,-2,-1,-1⟩, ⟨-2,-2,-1,-1⟩] [1, 1/2] [0, 1] (1/2) =
      [0, 1] ∧
    ¬ (keepOf (batched_nms [⟨-2,-2,-1,-1⟩, ⟨-2,-2,-1,-1⟩] [1, 1/2] [0, 1]
        (some ⟨1/2, 10000, -1⟩) false)).Perm
      (perClassMergedKeep [⟨-2,-2,-1,-1⟩, ⟨-2,-2,-1,-1⟩] [1, 1/2] [0, 1] (1/2)) := by
  have h1 : keepOf (batched_nms [⟨-2,-2,-1,-1⟩, ⟨-2,-2,-1,-1⟩] [1, 1/2] [0, 1]
      (some ⟨1/2, 10000, -1⟩) false) = [0] := by
    norm_num [keepOf, batched_nms, singlePath, boxesForNmsOf, maxCoordinate,
      shiftBox, getB, getQ, getN, nms, NMSop_forward, nms_pytorch, enumDets,
      sortDescBy, insertDescBy, nmsAux, iou, interArea, interW, interH, boxArea,
      max_def, min_def]
  have h2 : perClassMergedKeep [⟨-2,-2,-1,-1⟩, ⟨-2,-2,-1,-1⟩] [1, 1/2] [0, 1]
      (1/2) = [0, 1] := by
    norm_num [perClassMergedKeep, uniqueSorted, classKeepG, classMaskL, getB,
      getQ, getN, nms, NMSop_forward, nms_pytorch, enumDets, sortDescBy,
      insertDescBy, nmsAux, iou, interArea, interW, interH, boxArea, max_def,
      min_def, List.range_succ, List.range_zero, List.foldr]
  refine ⟨h1, h2, ?_⟩
  rw [h1, h2]
  decide

/-- Witness for C2 (amended) at a concrete non-negative input: two identical
boxes in different classes, which the offset trick now correctly
separates. -/
theorem batched_nms_perm_perClass_witness :
    ∃ out, batched_nms [⟨0,0,2,2⟩, ⟨0,0,2,2⟩] [1, 1/2] [0, 1]
        (some ⟨1/2, 10000, -1⟩) false = .ok out ∧
      out.2.Perm (perClassMergedKeep [⟨0,0,2,2⟩, ⟨0,0,2,2⟩] [1, 1/2] [0, 1] (1/2)) :=
  batched_nms_perm_perClass [⟨0,0,2,2⟩, ⟨0,0,2,2⟩] [1, 1/2] [0, 1] (1/2) 10000
    (by norm_num) (by simp) rfl rfl (by decide)

/-- C3: when the number of boxes is at least `split_thr` (inputs non-empty
and length-consistent), `batched_nms` - class-agnostic or not - takes the
partitioned branch and computes exactly: partition the indices by class id,
run the NMS op independently per class on the original (unshifted)
coordinates, union the kept indices, re-sort the union by score descending,
and apply `max_num` as a final global cap.  In the non-class-agnostic path
the op actually receives the offset-shifted rows, but within one class the
shift is a uniform translation, so each per-class run equals the run on the
original coordinates. -/
theorem batched_nms_split_spec (boxes : List Box) (scores : List ℚ)
    (idxs : List ℕ) (thr : ℚ) (sp : ℕ) (mn : ℤ) (ca : Bool)
    (hne : boxes ≠ [])
    (hL : boxes.length = scores.length) (hI : idxs.length = scores.length)
    (hsplit : sp ≤ boxes.length) :
    batched_nms boxes scores idxs (some ⟨thr, sp, mn⟩) ca =
      .ok (batchedSpecSplit boxes scores idxs thr mn) := by
  have hIB : idxs.length = boxes.length := hI.trans hL.symm
  cases ca with
  | true =>
    have h1 : batched_nms boxes scores idxs (some ⟨thr, sp, mn⟩) true =
        if boxes.length < sp then
          .ok (singlePath boxes scores thr mn boxes)
        else .ok (partPath boxes scores idxs thr mn boxes) := by
      simp only [batched_nms, if_true]
    rw [h1, if_neg (not_lt.2 hsplit)]
    exact congrArg Except.ok
      (partPath_eq_spec boxes boxes scores idxs thr mn fun c => rfl)
  | false =>
    have h1 : batched_nms boxes scores idxs (some ⟨thr, sp, mn⟩) false =
        if (boxesForNmsOf boxes idxs).length < sp then
          .ok (singlePath boxes scores thr mn (boxesForNmsOf boxes idxs))
        else .ok (partPath boxes scores idxs thr mn (boxesForNmsOf boxes idxs)) := by
      simp only [batched_nms, Bool.false_eq_true, if_false,
        List.isEmpty_eq_false.2 hne]
    have hlen : (boxesForNmsOf boxes idxs).length = boxes.length := by
      rw [boxesForNmsOf_length, hIB, min_self]
    rw [h1, hlen, if_neg (not_lt.2 hsplit)]
    exact congrArg Except.ok
      (partPath_eq_spec boxes (boxesForNmsOf boxes idxs) scores idxs thr mn
        fun c => classKeepG_shift boxes scores idxs thr c hIB)

/-- Witness for C3 at a concrete input: two boxes of two classes with
`split_thr = 1 <= N = 2`, so the partitioned branch runs. -/
theorem batched_nms_split_spec_witness :
    batched_nms [⟨0, 0, 2, 2⟩, ⟨3, 3, 5, 5⟩] [1, 1/2] [0, 1]
        (some ⟨1/2, 1, -1⟩) false =
      .ok (batchedSpecSplit [⟨0, 0, 2, 2⟩, ⟨3, 3, 5, 5⟩] [1, 1/2] [0, 1]
        (1/2) (-1)) :=
  batched_nms_split_spec [⟨0, 0, 2, 2⟩, ⟨3, 3, 5, 5⟩] [1, 1/2] [0, 1]
    (1/2) 1 (-1) false (by simp) rfl rfl (by norm_num)

/-- C5 (amended): in the non-class-agnostic single-pass path of
`batched_nms`, suppression runs on the boxes shifted by
`class_id * (max_coordinate + 1)` - added to all four coordinates, shown
pointwise at any in-range position `k` - while the kept rows of the returned
array carry the original, unshifted boxes with their scores.  The rotated
`(N, 5)` offsets are likewise built by shifting only the center coordinates
(pointwise at `kr`), but contrary to the claim no rotated suppression ever
runs on them: the rotated per-class path with any config raises at the op's
4-column assertion (see the counterexample). -/
theorem batched_nms_offset_trick (boxes : List Box) (scores : List ℚ)
    (idxs : List ℕ) (thr : ℚ) (sp : ℕ) (mn : ℤ) (k : ℕ)
    (rboxes : List RBox) (rscores : List ℚ) (ridxs : List ℕ) (cfg : NmsCfg)
    (kr : ℕ)
    (hne : boxes ≠ []) (hI : idxs.length = boxes.length)
    (hsingle : boxes.length < sp)
    (hk : k < boxes.length) (hk2 : k < idxs.length)
    (hrne : rboxes ≠ []) (hkr : kr < rboxes.length) (hkr2 : kr < ridxs.length) :
    batched_nms boxes scores idxs (some ⟨thr, sp, mn⟩) false =
      .ok ((nms (boxesForNmsOf boxes idxs) scores thr 0 0 mn).2.map
          (fun i => (getB boxes i, getQ scores i)),
        (nms (boxesForNmsOf boxes idxs) scores thr 0 0 mn).2) ∧
    getB (boxesForNmsOf boxes idxs) k =
      shiftBox (getB boxes k) ((getN idxs k : ℚ) * (maxCoordinate boxes + 1)) ∧
    (rotBoxesForNms rboxes ridxs).getD kr ⟨0, 0, 0, 0, 0⟩ =
      { rboxes.getD kr ⟨0, 0, 0, 0, 0⟩ with
        cx := (rboxes.getD kr ⟨0, 0, 0, 0, 0⟩).cx +
          ((ridxs.getD kr 0 : ℕ) : ℚ) * (rotMaxCoordinate rboxes + 1),
        cy := (rboxes.getD kr ⟨0, 0, 0, 0, 0⟩).cy +
          ((ridxs.getD kr 0 : ℕ) : ℚ) * (rotMaxCoordinate rboxes + 1) } ∧
    batched_nms_rotated rboxes rscores ridxs (some cfg) false =
      .error "assert boxes.size(1) == 4" := by
  refine ⟨?_, getB_boxesForNmsOf boxes idxs hk hk2, ?_, ?_⟩
  · have h1 : batched_nms boxes scores idxs (some ⟨thr, sp, mn⟩) false =
        if (boxesForNmsOf boxes idxs).length < sp then
          .ok (singlePath boxes scores thr mn (boxesForNmsOf boxes idxs))
        else .ok (partPath boxes scores idxs thr mn (boxesForNmsOf boxes idxs)) := by
      simp only [batched_nms, Bool.false_eq_true, if_false,
        List.isEmpty_eq_false.2 hne]
    have hlen : (boxesForNmsOf boxes idxs).length = boxes.length := by
      rw [boxesForNmsOf_length, hI, min_self]
    rw [h1, hlen, if_pos hsingle]
    refine congrArg Except.ok (Prod.ext_iff.2 ⟨?_, rfl⟩)
    show ((nms (boxesForNmsOf boxes idxs) scores thr 0 0 mn).2.map (getB boxes)).zip
        ((nms (boxesForNmsOf boxes idxs) scores thr 0 0 mn).1.map Prod.snd) = _
    rw [nms_snd_scores, List.zip_map']
  · simp only [rotBoxesForNms]
    have hz : kr < (rboxes.zip ridxs).length := by
      rw [List.length_zip]
      exact lt_min hkr hkr2
    rw [List.getD_eq_getElem _ _ (by rw [List.length_map]; exact hz),
      List.getElem_map, List.getElem_zip,
      List.getD_eq_getElem _ _ hkr, List.getD_eq_getElem _ _ hkr2]
  · simp only [batched_nms_rotated, Bool.false_eq_true, if_false,
      List.isEmpty_eq_false.2 hrne]

/-- C5 counterexample to the rotated half of the claim: on a concrete
non-empty rotated input with a config, the per-class path raises at the
4-column assertion instead of suppressing on center-shifted boxes -
`nms_rotated` has been removed from this fork, and the dispatched op `nms`
accepts only `(N, 4)` boxes. -/
theorem batched_nms_rotated_asserts :
    batched_nms_rotated [⟨0, 0, 2, 2, 0⟩, ⟨0, 0, 2, 2, 0⟩] [1, 1/2] [0, 1]
      (some ⟨1/2, 10000, -1⟩) false = .error "assert boxes.size(1) == 4" := rfl

/-- Witness for C5 (amended) at a concrete input: one axis-aligned box of
class 0 below the split threshold, and one rotated box. -/
theorem batched_nms_offset_trick_witness :
    batched_nms [⟨0, 0, 1, 1⟩] [1] [0] (some ⟨1/2, 5, -1⟩) false =
      .ok ((nms (boxesForNmsOf [⟨0, 0, 1, 1⟩] [0]) [1] (1/2) 0 0 (-1)).2.map
          (fun i => (getB [⟨0, 0, 1, 1⟩] i, getQ [1] i)),
        (nms (boxesForNmsOf [⟨0, 0, 1, 1⟩] [0]) [1] (1/2) 0 0 (-1)).2) ∧
    getB (boxesForNmsOf [⟨0, 0, 1, 1⟩] [0]) 0 =
      shiftBox (getB [⟨0, 0, 1, 1⟩] 0)
        ((getN [0] 0 : ℚ) * (maxCoordinate [⟨0, 0, 1, 1⟩] + 1)) ∧
    (rotBoxesForNms [⟨0, 0, 1, 1, 0⟩] [0]).getD 0 ⟨0, 0, 0, 0, 0⟩ =
      { ([⟨0, 0, 1, 1, 0⟩] : List RBox).getD 0 ⟨0, 0, 0, 0, 0⟩ with
        cx := (([⟨0, 0, 1, 1, 0⟩] : List RBox).getD 0 ⟨0, 0, 0, 0, 0⟩).cx +
          ((([0] : List ℕ).getD 0 0 : ℕ) : ℚ) * (rotMaxCoordinate [⟨0, 0, 1, 1, 0⟩] + 1),
        cy := (([⟨0, 0, 1, 1, 0⟩] : List RBox).getD 0 ⟨0, 0, 0, 0, 0⟩).cy +
          ((([0] : List ℕ).getD 0 0 : ℕ) : ℚ) * (rotMaxCoordinate [⟨0, 0, 1, 1, 0⟩] + 1) } ∧
    batched_nms_rotated [⟨0, 0, 1, 1, 0⟩] [1] [0] (some ⟨1/2, 10000, -1⟩) false =
      .error "assert boxes.size(1) == 4" :=
  batched_nms_offset_trick [⟨0, 0, 1, 1⟩] [1] [0] (1/2) 5 (-1) 0
    [⟨0, 0, 1, 1, 0⟩] [1] [0] ⟨1/2, 10000, -1⟩ 0
    (by simp) rfl (by norm_num) (by norm_num) (by norm_num)
    (by simp) (by norm_num) (by norm_num)

end MMCV
